import Mathlib

/-!
Shallow embedding of `packages/cypress/src/generators/convert-to-cypress-10/conversion.util.ts`.

The TypeScript source manipulates paths and JSON-like configuration objects and
edits an in-memory file tree.  We model:
  * JS strings as Lean `String` (operating on their `List Char` data),
  * JS `String.prototype.replace` with a string pattern (first occurrence only),
  * node `path.basename` / `dirname` / `extname`,
  * `joinPathFragments` (plain `/`-joining of non-empty fragments),
  * JSON objects as ordered association lists of primitive values,
  * the virtual `Tree` as an association list from path to file content, where
    file content is a token list (string-literal tokens and other text), which
    is what the string-literal rewriting capability of the source operates on.
-/

set_option autoImplicit false

namespace CypressConvert

/-- Is `pat` a prefix of `l`? (JS `startsWith` on char lists.) -/
def hasPref : List Char → List Char → Bool
  | [], _ => true
  | _ :: _, [] => false
  | a :: as, b :: bs => a == b && hasPref as bs

/-- Is `pat` a suffix of `l`? -/
def hasSuff (pat l : List Char) : Bool :=
  hasPref pat.reverse l.reverse

/-- Does `l` contain `pat` as a contiguous sublist?  (JS `String.prototype.includes`.) -/
def listContains (pat : List Char) : List Char → Bool
  | [] => pat.isEmpty
  | c :: cs => hasPref pat (c :: cs) || listContains pat cs

/-- JS `s.includes(pat)`. -/
def strContains (s pat : String) : Bool :=
  listContains pat.data s.data

/-- JS `s.startsWith(pat)`. -/
def strStarts (s pat : String) : Bool :=
  hasPref pat.data s.data

/-- JS `s.endsWith(pat)`. -/
def strEnds (s pat : String) : Bool :=
  hasSuff pat.data s.data

/-- Replace the first occurrence of `pat` in `l` by `rep`; if `pat` does not
occur, return `l` unchanged.  An empty pattern matches at the start, as in JS
`String.prototype.replace` with a string pattern. -/
def replaceFirstL (pat rep : List Char) : List Char → List Char
  | [] => if pat.isEmpty then rep else []
  | c :: cs =>
    if hasPref pat (c :: cs) then rep ++ (c :: cs).drop pat.length
    else c :: replaceFirstL pat rep cs

/-- JS `s.replace(pat, rep)` with a string pattern: first occurrence only. -/
def jsReplace (s pat rep : String) : String :=
  ⟨replaceFirstL pat.data rep.data s.data⟩

/-! ### node `path` functions -/

/-- The characters after the last `/` of `l` (the whole list when there is no `/`). -/
def afterLastSlash (l : List Char) : List Char :=
  l.foldl (fun acc c => if c = '/' then [] else acc ++ [c]) []

/-- The characters strictly before the last `/`, or `none` when there is no `/`. -/
def beforeLastSlash : List Char → Option (List Char)
  | [] => none
  | c :: cs =>
    match beforeLastSlash cs with
    | some rest => some (c :: rest)
    | none => if c = '/' then some [] else none

/-- node `path.basename(p)` (no trailing-slash handling; the paths built by the
source never end in a slash). -/
def basename (p : String) : String :=
  ⟨afterLastSlash p.data⟩

/-- node `path.dirname(p)`. -/
def dirname (p : String) : String :=
  match beforeLastSlash p.data with
  | none => "."
  | some [] => "/"
  | some l => ⟨l⟩

/-- node `path.extname(p)`: the extension of the basename, from its last `.`
(but a `.` as the first character of the basename starts no extension). -/
def extname (p : String) : String :=
  let name := afterLastSlash p.data
  let tail := (name.reverse.takeWhile (fun c => c ≠ '.')).reverse
  if tail.length + 1 ≤ name.length then
    if tail.length + 1 = name.length then "" else ⟨'.' :: tail⟩
  else ""

/-- node `path.basename(p, ext)`: the basename with a trailing `ext` removed,
unless the whole basename equals `ext`. -/
def basenameExt (p ext : String) : String :=
  let name := afterLastSlash p.data
  if ext.data ≠ [] ∧ name ≠ ext.data ∧ hasSuff ext.data name then
    ⟨name.take (name.length - ext.data.length)⟩
  else ⟨name⟩

/-- Join strings with a separator. -/
def strJoin (sep : String) : List String → String
  | [] => ""
  | [x] => x
  | x :: y :: xs => x ++ sep ++ strJoin sep (y :: xs)

/-- `joinPathFragments` from `@nrwl/devkit`: join the non-empty fragments with `/`.
(The source only ever joins plain relative fragments, so no `..`-normalisation
is needed.) -/
def joinPathFragments (fragments : List String) : String :=
  strJoin "/" (fragments.filter (fun f => f ≠ ""))

/-! ### JSON-like configuration values

`cypress.json` holds an object of primitive values (paths, flags, numbers).
We model values by `JValue` and objects by ordered association lists, which is
what JS object-literal spread (`{...rest, k: v}`) operates on. -/

inductive JValue : Type
  | str (s : String)
  | bool (b : Bool)
  | num (n : Nat)
  | null
  deriving DecidableEq, Repr

/-- JS truthiness of a `JValue`: `false`, `null`, `0` and `""` are falsy. -/
def JValue.truthy : JValue → Bool
  | .str s => s ≠ ""
  | .bool b => b
  | .num n => n ≠ 0
  | .null => false

/-- JS string coercion (as in template-literal interpolation). -/
def JValue.toDisplay : JValue → String
  | .str s => s
  | .bool true => "true"
  | .bool false => "false"
  | .num n => toString n
  | .null => "null"

/-- A JS object: ordered association list from key to value. -/
abbrev JObject : Type := List (String × JValue)

/-- First binding of key `k` (JS property lookup; keys of parsed JSON objects
are unique). -/
def getKey (o : JObject) (k : String) : Option JValue :=
  match o with
  | [] => none
  | e :: es => if e.1 = k then some e.2 else getKey es k

/-- JS object-literal assignment `{...o, k: v}`: overwrite the value in place
when the key is present, otherwise append the binding. -/
def setKey (o : JObject) (k : String) (v : JValue) : JObject :=
  if o.any (fun e => e.1 = k) then
    o.map (fun e => if e.1 = k then (k, v) else e)
  else o ++ [(k, v)]

/-- Drop the bindings whose key is in `ks` (JS rest-destructuring
`const \x7b a, b, ...rest \x7d = o`). -/
def dropKeys (o : JObject) (ks : List String) : JObject :=
  o.filter (fun e => ¬ e.1 ∈ ks)

/-! ### File contents and the virtual tree

The only operation the source performs on file *contents* is the
string-literal search-and-replace of `updateImports` (via `tsquery`), which the
specification describes as the capability "find string literals matching a
suffix pattern and transform their text".  We therefore model a file's content
as a token list: string-literal tokens (delimiter plus textual value) and
opaque other text. -/

inductive Tok : Type
  | lit (delim : Char) (value : String)
  | other (s : String)
  deriving DecidableEq, Repr

abbrev FileContent : Type := List Tok

/-- The virtual `Tree`: an association list from file path to file content. -/
abbrev Tree : Type := List (String × FileContent)

/-- Membership of a file at exactly `p`.  This models `tree.exists(p)` only at
paths the source probes as plain files (the two config files and the default
support file); for a path that may name a directory, use `Tree.existsPath`. -/
def Tree.existsFile (t : Tree) (p : String) : Bool :=
  t.any (fun e => e.1 = p)

/-- devkit `tree.exists(p)` in general: true when a file sits at `p` itself or
`p` is a (non-empty) directory, i.e. some file lies below `p/`. -/
def Tree.existsPath (t : Tree) (p : String) : Bool :=
  t.any (fun e => e.1 = p || hasPref (p ++ "/").data e.1.data)

/-- `tree.rename(old, new)`: move the file content at `old` to `new`.
A rename with the same path is a no-op. -/
def Tree.rename (t : Tree) (old new : String) : Tree :=
  t.map (fun e => if e.1 = old then (new, e.2) else e)

/-- `tree.read(p)`. -/
def Tree.read (t : Tree) (p : String) : Option FileContent :=
  match t with
  | [] => none
  | e :: es => if e.1 = p then some e.2 else Tree.read es p

/-- `tree.write(p, c)` on an existing file: replace its content in place. -/
def Tree.write (t : Tree) (p : String) (c : FileContent) : Tree :=
  t.map (fun e => if e.1 = p then (p, c) else e)

/-- `tree.children(dir)` is empty iff no file lives strictly below `dir`.
(`FsTree` reports both files and directories; with only files in the model, a
directory has a child exactly when some file path extends it.) -/
def Tree.childrenEmpty (t : Tree) (dir : String) : Bool :=
  ¬ t.any (fun e => hasPref (dir ++ "/").data e.1.data)

/-- `tree.delete(p)`: remove the file at `p` and everything below `p`. -/
def Tree.delete (t : Tree) (p : String) : Tree :=
  t.filter (fun e => ¬ (e.1 = p ∨ hasPref (p ++ "/").data e.1.data))

/-- The snapshot of file paths visited by `visitNotIgnoredFiles(tree, dir, ...)`:
the files strictly below `dir`, in tree order. -/
def Tree.filesUnder (t : Tree) (dir : String) : List String :=
  (t.filter (fun e => hasPref (dir ++ "/").data e.1.data)).map Prod.fst

/-! ### `verifyProjectForUpgrade` -/

/-- A project target: its `executor` and its `options.cypressConfig`
(either may be absent). -/
structure TargetConfig : Type where
  executor : Option String
  cypressConfig : Option String
  deriving DecidableEq, Repr

/-- The slice of `ProjectConfiguration` the source reads. -/
structure ProjectConfiguration : Type where
  root : String
  sourceRoot : String
  targets : List (String × TargetConfig)
  deriving DecidableEq, Repr

def ProjectConfiguration.getTarget (p : ProjectConfiguration) (target : String) :
    Option TargetConfig :=
  match p.targets.find? (fun e => e.1 = target) with
  | some e => some e.2
  | none => none

structure VerifyResult : Type where
  shouldUpgrade : Bool
  cypressConfigPathJson : Option String
  cypressConfigPathTs : Option String
  deriving DecidableEq, Repr

/-- `verifyProjectForUpgrade(tree, projectConfig, target)`, with the external
`installedCypressVersion()` passed as a parameter. -/
def verifyProjectForUpgrade (installedCypressVersion : Nat) (tree : Tree)
    (projectConfig : ProjectConfiguration) (target : String) : VerifyResult :=
  match projectConfig.getTarget target with
  | none =>
    { shouldUpgrade := false
      cypressConfigPathJson := none
      cypressConfigPathTs := none }
  | some t =>
    let cypressConfigPathJson :=
      match t.cypressConfig with
      | some s => if s ≠ "" then s else joinPathFragments [projectConfig.root, "cypress.json"]
      | none => joinPathFragments [projectConfig.root, "cypress.json"]
    let cypressConfigPathTs := joinPathFragments [projectConfig.root, "cypress.config.ts"]
    if installedCypressVersion < 8 then
      { shouldUpgrade := false
        cypressConfigPathJson := some cypressConfigPathJson
        cypressConfigPathTs := some cypressConfigPathTs }
    else
      let shouldUpgrade :=
        t.executor = some "@nrwl/cypress:cypress" &&
          (tree.existsFile cypressConfigPathJson && !tree.existsFile cypressConfigPathTs)
      { shouldUpgrade := shouldUpgrade
        cypressConfigPathJson := some cypressConfigPathJson
        cypressConfigPathTs := some cypressConfigPathTs }

/-! ### `createNewCypressConfig` -/

/-- The translated config: `\x7b baseUrl?, e2e: \x7b ... \x7d \x7d`. -/
structure NewCypressConfig : Type where
  baseUrl : Option JValue
  e2e : JObject
  deriving DecidableEq, Repr

/-- The fixed spec pattern of the new schema. -/
def specPatternGlob : String := "src/e2e/**/*.cy.\x7bjs,jsx,ts,tsx\x7d"

/-- `createNewCypressConfig(tree, projectConfig, cypressConfigPathJson)`, with
the parsed JSON object passed directly (the read itself is external).  Only
`projectConfig.sourceRoot` is consulted.  Both `tree.exists` probes use
`Tree.existsPath`: in particular `<sourceRoot>/integration` is a directory, so
the probe is true whenever files live below it. -/
def createNewCypressConfig (tree : Tree) (sourceRoot : String)
    (cypressConfigJson : JObject) : NewCypressConfig :=
  let baseUrl := (getKey cypressConfigJson "baseUrl").getD .null
  let integrationFolder := (getKey cypressConfigJson "integrationFolder").getD (.str "src/e2e")
  let supportFile := (getKey cypressConfigJson "supportFile").getD (.str "src/support/e2e.ts")
  let restOfConfig :=
    dropKeys cypressConfigJson
      ["baseUrl", "modifyObstructiveCode", "integrationFolder", "supportFile"]
  let e2e :=
    setKey
      (setKey
        (setKey restOfConfig "specPattern" (.str specPatternGlob))
        "supportFile"
        (if supportFile.truthy &&
            tree.existsPath (joinPathFragments [sourceRoot, "support", "index.ts"]) then
          .str "src/support/e2e.ts"
        else supportFile))
      "integrationFolder"
      (if tree.existsPath (joinPathFragments [sourceRoot, "integration"]) then
        .str "src/e2e"
      else integrationFolder)
  { baseUrl := if baseUrl.truthy then some baseUrl else none
    e2e := e2e }

/-! ### `updateImports`

`tsquery.replace(content, StringLiteral[value=/oldImportPath$/], node =>
\x27$\x7bnode.text.replace(oldImportPath, newImportPath)\x7d\x27)`:
every string literal whose value ends with `oldImportPath` is re-emitted as a
single-quoted literal whose value has the first occurrence of `oldImportPath`
replaced by `newImportPath`.  (The import leaves the source feeds into the
regex are single path segments without metacharacter issues, so the suffix
regex is modelled as a plain suffix test.) -/

def singleQuote : Char := Char.ofNat 39

/-- The per-token action of `updateImports` on a file's content. -/
def rewriteTok (oldImportPath newImportPath : String) : Tok → Tok
  | .lit d v =>
    if strEnds v oldImportPath then .lit singleQuote (jsReplace v oldImportPath newImportPath)
    else .lit d v
  | .other s => .other s

/-- `updateImports` as a content transformation. -/
def updateImportsContent (oldImportPath newImportPath : String)
    (content : FileContent) : FileContent :=
  content.map (rewriteTok oldImportPath newImportPath)

/-- `updateImports(tree, filePath, oldImportPath, newImportPath)`:
read the file, rewrite its string literals, write it back. -/
def updateImports (tree : Tree) (filePath oldImportPath newImportPath : String) : Tree :=
  match tree.read filePath with
  | none => tree
  | some content =>
    tree.write filePath (updateImportsContent oldImportPath newImportPath content)

/-! ### `updateProjectPaths` -/

/-- The extensions whose files get their imports updated. -/
def validFilesEndingsToUpdate : List String :=
  [".js", ".jsx", ".ts", ".tsx", ".mjs", ".cjs"]

/-- The old import leaf derived from the old support file path
(lines 252-263 of the source): the basename without extension, except that an
`index` basename collapses to the parent directory name. -/
def oldImportLeaf (oldSupportFile : String) : String :=
  let oldRelativeImportPath := basenameExt oldSupportFile (extname oldSupportFile)
  let oldImportParentDirectory := basename (dirname oldSupportFile)
  if oldRelativeImportPath = "index" then oldImportParentDirectory
  else oldRelativeImportPath

/-- The new import leaf derived from the new support file path
(lines 240-251 of the source): always `parentDir/basenameWithoutExt`. -/
def newImportLeaf (newSupportFile : String) : String :=
  let newRelativeImportPath := basenameExt newSupportFile (extname newSupportFile)
  let newImportParentDirectory := basename (dirname newSupportFile)
  joinPathFragments [newImportParentDirectory, newRelativeImportPath]

/-- The path a visited file is renamed to (lines 272-277 of the source):
substitute the integration folder, then, when the basename contains `.spec.`,
replace the first occurrence of `.spec.` in the whole new path. -/
def migratedPath (oldIntegrationFolder newIntegrationFolder path : String) : String :=
  let fileName := basename path
  let newPath := jsReplace path oldIntegrationFolder newIntegrationFolder
  if strContains fileName ".spec." then jsReplace newPath ".spec." ".cy."
  else newPath

/-- The visitor body of `visitNotIgnoredFiles` (lines 268-287 of the source). -/
def visitStep (oldIntegrationFolder newIntegrationFolder : String)
    (shouldUpdateSupportFileImports : Bool) (oldImportLeafPath newImportLeafPath : String)
    (t : Tree) (path : String) : Tree :=
  if ¬ strContains path oldIntegrationFolder then t
  else
    let newPath := migratedPath oldIntegrationFolder newIntegrationFolder path
    let t1 := t.rename path newPath
    if shouldUpdateSupportFileImports &&
        validFilesEndingsToUpdate.any (fun e => strEnds path e) then
      updateImports t1 newPath oldImportLeafPath newImportLeafPath
    else t1

/-- `updateProjectPaths(tree, projectConfig, \x7bcypressConfigTs, cypressConfigJson\x7d)`.
The fields the source reads from the two configs are passed explicitly:
`tsIntegrationFolder`/`tsSupportFile` are `cypressConfigTs.e2e`'s values and
`jsonIntegrationFolder`/`jsonSupportFile` are `cypressConfigJson`'s values. -/
def updateProjectPaths (root sourceRoot : String)
    (tsIntegrationFolder : String) (tsSupportFile : JValue)
    (jsonIntegrationFolder : String) (jsonSupportFile : JValue)
    (tree : Tree) : Tree :=
  let oldIntegrationFolder := joinPathFragments [root, jsonIntegrationFolder]
  let newIntegrationFolder := joinPathFragments [root, tsIntegrationFolder]
  let afterSupport :=
    if jsonSupportFile.truthy then
      let oldSupportFile := joinPathFragments [root, jsonSupportFile.toDisplay]
      let newSupportFile := joinPathFragments [root, tsSupportFile.toDisplay]
      (tree.rename oldSupportFile newSupportFile, true,
        oldImportLeaf oldSupportFile, newImportLeaf newSupportFile)
    else
      let defaultSupportFile := joinPathFragments [sourceRoot, "support", "index.ts"]
      let t1 :=
        if tree.existsFile defaultSupportFile then
          tree.rename defaultSupportFile (joinPathFragments [sourceRoot, "support", "e2e.ts"])
        else tree
      (t1, false, "", "")
  match afterSupport with
  | (t1, shouldUpdateSupportFileImports, oldLeaf, newLeaf) =>
    let visited :=
      (t1.filesUnder sourceRoot).foldl
        (visitStep oldIntegrationFolder newIntegrationFolder
          shouldUpdateSupportFileImports oldLeaf newLeaf)
        t1
    if visited.childrenEmpty oldIntegrationFolder then
      visited.delete oldIntegrationFolder
    else visited

/-! ### `writeNewConfig`

`util.inspect` of a flat object of primitives is modelled as
`\x7b k1: v1, k2: v2 \x7d` with keys unquoted, strings single-quoted
verbatim, numbers in decimal, booleans and null literal; the empty object
prints `\x7b\x7d`.  This matches node's `util.inspect` exactly on `identKey`
keys (node's unquoted-key regex) and `plainValue` values (no escaping or
re-quoting needed); theorems comparing renderings with emitted text restrict
to that class.  `writeNewConfig` then trims, strips the outer braces, trims
again and splices the result into a fixed template.  The final `tree.write`
is the external effect; the emitted source text is what the claims are
about. -/

def digitsAux : Nat → List Char → List Char
  | 0, acc => acc
  | n + 1, acc => digitsAux ((n + 1) / 10) (Nat.digitChar ((n + 1) % 10) :: acc)
  decreasing_by exact Nat.div_lt_self (Nat.succ_pos n) (by omega)

/-- Decimal digits of a natural number. -/
def natDigits (n : Nat) : List Char :=
  if n = 0 then ['0'] else digitsAux n []

/-- `util.inspect` rendering of a primitive value.  For strings this is the
verbatim single-quoted form, which matches `util.inspect` exactly on strings
of `plainValueChar`s; strings containing quotes, backslashes or control
characters (which `util.inspect` escapes or re-quotes) are excluded by
`plainValue` hypotheses wherever renderings are compared with emitted text. -/
def renderJValue : JValue → String
  | .str s => "\x27" ++ s ++ "\x27"
  | .bool true => "true"
  | .bool false => "false"
  | .num n => ⟨natDigits n⟩
  | .null => "null"

/-- `util.inspect` rendering of one binding. -/
def renderEntry (e : String × JValue) : String :=
  e.1 ++ ": " ++ renderJValue e.2

/-- `util.inspect` of a flat object. -/
def inspectObj (o : JObject) : String :=
  if o = [] then "\x7b\x7d"
  else "\x7b " ++ strJoin ", " (o.map renderEntry) ++ " \x7d"

def isWsChar (c : Char) : Bool :=
  c = ' ' ∨ c = '\n' ∨ c = '\t' ∨ c = '\r'

/-- Does the char list start with a non-whitespace character? -/
def headOkay (l : List Char) : Bool :=
  match l with
  | [] => false
  | c :: _ => ! isWsChar c

/-- A key that is non-empty and bordered by non-whitespace characters.  This
is only the property the `trim`/`slice` computations below need; it is weaker
than being an identifier. -/
def plainKey (k : String) : Bool :=
  headOkay k.data && headOkay k.data.reverse

/-- A character that may start an unquoted `util.inspect` key
(node's `keyStrRegExp` is `^[a-zA-Z_][a-zA-Z_0-9]*$`). -/
def isIdentStart (c : Char) : Bool :=
  c.isAlpha || c = '_'

/-- A non-initial character of an unquoted `util.inspect` key. -/
def isIdentChar (c : Char) : Bool :=
  c.isAlphanum || c = '_'

/-- A key `util.inspect` renders unquoted, per node's `keyStrRegExp`.  This is
the key class on which `inspectObj` below is a faithful model. -/
def identKey (k : String) : Bool :=
  match k.data with
  | [] => false
  | c :: cs => isIdentStart c && cs.all isIdentChar

/-- A printable ASCII character that `util.inspect` emits verbatim inside a
single-quoted string: not a single quote (which would switch the quoting
style) and not a backslash or control character (which would be escaped). -/
def plainValueChar (c : Char) : Bool :=
  32 ≤ c.toNat && c.toNat ≤ 126 && c ≠ singleQuote && c ≠ '\\'

/-- A primitive value `util.inspect` renders exactly as `renderJValue` does:
any boolean, number or null, and a string of `plainValueChar`s (emitted
verbatim between single quotes).  Strings needing escaping or a different
quoting style are outside the model. -/
def plainValue : JValue → Bool
  | .str s => s.data.all plainValueChar
  | _ => true

/-- JS `s.trim()`. -/
def strTrim (s : String) : String :=
  ⟨((s.data.dropWhile isWsChar).reverse.dropWhile isWsChar).reverse⟩

/-- JS `s.slice(1, -1)`. -/
def slice1m1 (s : String) : String :=
  ⟨(s.data.drop 1).dropLast⟩

/-- `inspect(restOfConfig).trim().slice(1, -1).trim()` from the source. -/
def convertedConfig (o : JObject) : String :=
  strTrim (slice1m1 (strTrim (inspectObj o)))

/-- The `e2e` object destructured by `writeNewConfig`: `pluginsFile` and
`integrationFolder` removed. -/
def strippedE2e (e2e : JObject) : JObject :=
  dropKeys e2e ["pluginsFile", "integrationFolder"]

/-- The destructured `pluginsFile` value, default `false`. -/
def pluginsFileOf (e2e : JObject) : JValue :=
  (getKey e2e "pluginsFile").getD (.bool false)

/-- The synthesized plugin import line (empty for a falsy `pluginsFile`). -/
def pluginImport (pluginsFile : JValue) : String :=
  if pluginsFile.truthy then
    "import setupNodeEvents from \x27" ++ pluginsFile.toDisplay ++ "\x27;"
  else ""

/-- The conditional `setupNodeEvents` slot of the template. -/
def setupNodeEventsSlot (pluginsFile : JValue) : String :=
  if pluginsFile.truthy then "setupNodeEvents" else ""

/-- The fixed part of the emission template before the plugin import slot. -/
def wncHeader : String :=
  "\nimport \x7b defineConfig \x7d from \x27cypress\x27\nimport \x7b nxE2EPreset \x7d from \x27@nrwl/cypress/plugins/cypress-preset\x27;\n"

/-- The fixed part of the template between the plugin import slot and the
serialized config. -/
def wncMid : String :=
  "\n\nexport default defineConfig(\x7b\n  e2e: \x7b\n    ...nxE2EPreset(__dirname),\n    "

/-- The fixed part of the template between the serialized config and the
`setupNodeEvents` slot. -/
def wncComma : String := ",\n    "

/-- The fixed closing part of the template. -/
def wncFooter : String := "\n  \x7d\n\x7d)\n"

/-- The source text `writeNewConfig` writes to `cypress.config.ts`. -/
def writeNewConfigText (e2e : JObject) : String :=
  let pluginsFile := pluginsFileOf e2e
  wncHeader ++ pluginImport pluginsFile ++ wncMid
    ++ convertedConfig (strippedE2e e2e)
    ++ wncComma ++ setupNodeEventsSlot pluginsFile ++ wncFooter

/-! ### Spec-side definitions

These follow the *claims'* words (not the source); each is compared with the
corresponding source-derived function above. -/

/-- Modelled from claim C1's words: rename by substituting the integration
folder, then replace the `.spec.` marker *within the filename* when the
basename contains it. -/
def claimedMigratedPath (oldIntegrationFolder newIntegrationFolder path : String) : String :=
  let newPath := jsReplace path oldIntegrationFolder newIntegrationFolder
  let fileName := basename newPath
  if strContains fileName ".spec." then
    joinPathFragments [dirname newPath, jsReplace fileName ".spec." ".cy."]
  else newPath

/-- Modelled from claim C4's words: the matched literal's value with its
old-leaf *suffix* replaced by the new leaf, everything before it preserved. -/
def claimedRewriteValue (oldLeaf newLeaf v : String) : String :=
  ⟨v.data.take (v.data.length - oldLeaf.data.length) ++ newLeaf.data⟩

/-- Modelled from claim C5's words: one derivation applied to both support
file paths, yielding `parentDir/basenameWithoutExt` in general and just
`parentDir` when the basename without extension is `index`. -/
def claimedImportLeaf (supportFile : String) : String :=
  let nameNoExt := basenameExt supportFile (extname supportFile)
  let parentDir := basename (dirname supportFile)
  if nameNoExt = "index" then parentDir
  else joinPathFragments [parentDir, nameNoExt]

/-! ## Lemmas: prefix, containment, first-occurrence replacement -/

theorem hasPref_iff (p l : List Char) : hasPref p l = true ↔ ∃ r, l = p ++ r := by
  induction p generalizing l with
  | nil => simp [hasPref]
  | cons a as ih =>
    cases l with
    | nil => simp [hasPref]
    | cons b bs =>
      simp only [hasPref, Bool.and_eq_true, beq_iff_eq, ih, List.cons_append]
      constructor
      · rintro ⟨rfl, r, rfl⟩; exact ⟨r, rfl⟩
      · rintro ⟨r, h⟩
        injection h with h1 h2
        exact ⟨h1.symm, r, h2⟩

theorem hasPref_append (p r : List Char) : hasPref p (p ++ r) = true :=
  (hasPref_iff p (p ++ r)).2 ⟨r, rfl⟩

theorem listContains_iff (pat l : List Char) :
    listContains pat l = true ↔ ∃ pre post, l = pre ++ pat ++ post := by
  induction l with
  | nil =>
    simp only [listContains, List.isEmpty_iff]
    constructor
    · rintro rfl; exact ⟨[], [], rfl⟩
    · rintro ⟨pre, post, h⟩
      rcases List.append_eq_nil.1 h.symm with ⟨h1, h2⟩
      exact (List.append_eq_nil.1 h1).2
  | cons c cs ih =>
    simp only [listContains, Bool.or_eq_true, hasPref_iff, ih]
    constructor
    · rintro (⟨r, h⟩ | ⟨pre, post, h⟩)
      · exact ⟨[], r, by simp [h]⟩
      · exact ⟨c :: pre, post, by simp [h]⟩
    · rintro ⟨pre, post, h⟩
      cases pre with
      | nil => exact Or.inl ⟨post, by simpa using h⟩
      | cons x xs =>
        right
        refine ⟨xs, post, ?_⟩
        have h' : c = x ∧ cs = xs ++ (pat ++ post) := by simpa using h
        simpa using h'.2

theorem hasSuff_iff (p l : List Char) : hasSuff p l = true ↔ ∃ r, l = r ++ p := by
  unfold hasSuff
  rw [hasPref_iff]
  constructor
  · rintro ⟨r, h⟩
    refine ⟨r.reverse, ?_⟩
    have := congrArg List.reverse h
    simpa using this
  · rintro ⟨r, rfl⟩
    exact ⟨r.reverse, by simp⟩

theorem listContains_of_hasSuff (pat l : List Char) (h : hasSuff pat l = true) :
    listContains pat l = true := by
  rcases (hasSuff_iff pat l).1 h with ⟨r, rfl⟩
  exact (listContains_iff pat (r ++ pat)).2 ⟨r, [], by simp⟩

theorem listContains_self (l : List Char) : listContains l l = true :=
  (listContains_iff l l).2 ⟨[], [], by simp⟩

theorem mem_of_listContains {pat l : List Char} (h : listContains pat l = true)
    {c : Char} (hc : c ∈ pat) : c ∈ l := by
  rcases (listContains_iff pat l).1 h with ⟨pre, post, rfl⟩
  simp [hc]

theorem strContains_of_data_decomp {s pat : String} (pre post : List Char)
    (h : s.data = pre ++ pat.data ++ post) : strContains s pat = true :=
  (listContains_iff pat.data s.data).2 ⟨pre, post, h⟩

/-- First-occurrence replacement: when `pat` occurs in `l`,
`replaceFirstL pat rep l` splices `rep` in place of the leftmost occurrence. -/
theorem replaceFirstL_spec (pat rep : List Char) :
    ∀ l : List Char, listContains pat l = true →
      ∃ pre post, l = pre ++ pat ++ post ∧
        replaceFirstL pat rep l = pre ++ rep ++ post ∧
        ∀ pre2 post2, l = pre2 ++ pat ++ post2 → pre.length ≤ pre2.length := by
  intro l
  induction l with
  | nil =>
    intro h
    simp only [listContains, List.isEmpty_iff] at h
    subst h
    exact ⟨[], [], by simp, by simp [replaceFirstL], fun _ _ _ => Nat.zero_le _⟩
  | cons c cs ih =>
    intro h
    by_cases hp : hasPref pat (c :: cs) = true
    · rcases (hasPref_iff pat (c :: cs)).1 hp with ⟨r, hr⟩
      refine ⟨[], r, by simp [hr], ?_, fun _ _ _ => Nat.zero_le _⟩
      simp only [replaceFirstL, hp, if_pos]
      rw [hr, List.drop_left]
      simp
    · have hcs : listContains pat cs = true := by
        simp only [listContains, Bool.or_eq_true] at h
        rcases h with h | h
        · exact absurd h hp
        · exact h
      rcases ih hcs with ⟨pre, post, hdec, hrep, hmin⟩
      refine ⟨c :: pre, post, by simp [hdec], ?_, ?_⟩
      · have : replaceFirstL pat rep (c :: cs) = c :: replaceFirstL pat rep cs := by
          simp [replaceFirstL, hp]
        rw [this, hrep]; simp
      · rintro pre2 post2 h2
        cases pre2 with
        | nil =>
          exfalso
          apply hp
          simp only [List.nil_append] at h2
          rw [h2]
          exact hasPref_append pat post2
        | cons x xs =>
          have : cs = xs ++ pat ++ post2 := by
            simpa using congrArg List.tail h2
          simpa using Nat.succ_le_succ (hmin xs post2 this)

/-! ## Lemmas: JS objects -/

theorem getKey_append_right (o1 o2 : JObject) (k : String) (h : getKey o1 k = none) :
    getKey (o1 ++ o2) k = getKey o2 k := by
  induction o1 with
  | nil => simp
  | cons e es ih =>
    by_cases he : e.1 = k
    · simp [getKey, he] at h
    · simp only [getKey, he, if_neg, List.cons_append] at h ⊢
      exact ih h

theorem getKey_eq_none_of_not_any (o : JObject) (k : String)
    (h : o.any (fun e => e.1 = k) = false) : getKey o k = none := by
  induction o with
  | nil => rfl
  | cons e es ih =>
    simp only [List.any_cons, Bool.or_eq_false_iff, decide_eq_false_iff_not] at h
    simp only [getKey, if_neg h.1]
    exact ih h.2

theorem getKey_setKey_self (o : JObject) (k : String) (v : JValue) :
    getKey (setKey o k v) k = some v := by
  unfold setKey
  by_cases h : o.any (fun e => e.1 = k) = true
  · rw [if_pos h]
    induction o with
    | nil => simp at h
    | cons e es ih =>
      by_cases he : e.1 = k
      · simp [getKey, he]
      · simp only [List.any_cons, Bool.or_eq_true, decide_eq_true_eq] at h
        rcases h with h | h
        · exact absurd h he
        · simp only [List.map_cons, if_neg he, getKey, he, if_neg, ite_false]
          exact ih h
  · rw [if_neg h]
    have h' : getKey o k = none :=
      getKey_eq_none_of_not_any o k (Bool.eq_false_iff.2 h)
    rw [getKey_append_right o _ k h']
    simp [getKey]

theorem getKey_map_setFun (o : JObject) (k k' : String) (v : JValue) (hne : k ≠ k') :
    getKey (o.map fun e => if e.1 = k' then (k', v) else e) k = getKey o k := by
  induction o with
  | nil => rfl
  | cons e es ih =>
    by_cases he : e.1 = k'
    · have h1 : k' ≠ k := fun h => hne h.symm
      have h2 : e.1 ≠ k := he ▸ h1
      simp only [List.map_cons, if_pos he, getKey, if_neg h1, if_neg h2]
      exact ih
    · simp only [List.map_cons, if_neg he, getKey]
      by_cases hek : e.1 = k
      · simp [hek]
      · simp only [if_neg hek]
        exact ih

theorem getKey_append_single_ne (o : JObject) (k k' : String) (v : JValue) (hne : k ≠ k') :
    getKey (o ++ [(k', v)]) k = getKey o k := by
  induction o with
  | nil => simp [getKey, Ne.symm hne]
  | cons e es ih =>
    by_cases he : e.1 = k
    · simp [getKey, he]
    · simp only [List.cons_append, getKey, if_neg he]
      exact ih

theorem getKey_setKey_ne (o : JObject) (k k' : String) (v : JValue) (hne : k ≠ k') :
    getKey (setKey o k' v) k = getKey o k := by
  unfold setKey
  by_cases h : o.any (fun e => e.1 = k') = true
  · rw [if_pos h]
    exact getKey_map_setFun o k k' v hne
  · rw [if_neg h]
    exact getKey_append_single_ne o k k' v hne

theorem mem_setKey_of_ne {o : JObject} {k : String} {v : JValue} (k' : String) (v' : JValue)
    (hm : (k, v) ∈ o) (hne : k ≠ k') : (k, v) ∈ setKey o k' v' := by
  unfold setKey
  by_cases h : o.any (fun e => e.1 = k') = true
  · rw [if_pos h]
    refine List.mem_map.2 ⟨(k, v), hm, ?_⟩
    simp [hne]
  · rw [if_neg h]
    exact List.mem_append_left _ hm

theorem mem_of_mem_setKey {o : JObject} {k k' : String} {v v' : JValue}
    (hm : (k, v) ∈ setKey o k' v') : (k, v) ∈ o ∨ (k, v) = (k', v') := by
  unfold setKey at hm
  by_cases h : o.any (fun e => e.1 = k') = true
  · rw [if_pos h] at hm
    rcases List.mem_map.1 hm with ⟨e, he, heq⟩
    by_cases hk : e.1 = k'
    · right; rw [if_pos hk] at heq; exact heq.symm
    · left; rw [if_neg hk] at heq; exact heq ▸ he
  · rw [if_neg h] at hm
    rcases List.mem_append.1 hm with hm | hm
    · exact Or.inl hm
    · right; simpa using hm

theorem mem_dropKeys {o : JObject} {k : String} {v : JValue} {ks : List String}
    (hm : (k, v) ∈ o) (hk : ¬ k ∈ ks) : (k, v) ∈ dropKeys o ks := by
  unfold dropKeys
  exact List.mem_filter.2 ⟨hm, by simpa using hk⟩

theorem of_mem_dropKeys {o : JObject} {e : String × JValue} {ks : List String}
    (hm : e ∈ dropKeys o ks) : e ∈ o ∧ ¬ e.1 ∈ ks := by
  unfold dropKeys at hm
  have := List.mem_filter.1 hm
  exact ⟨this.1, by simpa using this.2⟩

/-! ## Lemmas: the virtual tree -/

theorem mem_rename_tgt {t : Tree} {a : String} {c : FileContent} (b : String)
    (hm : (a, c) ∈ t) : (b, c) ∈ t.rename a b := by
  refine List.mem_map.2 ⟨(a, c), hm, ?_⟩
  simp

theorem mem_rename_other {t : Tree} {p : String} {c : FileContent} {a : String} (b : String)
    (hm : (p, c) ∈ t) (hne : p ≠ a) : (p, c) ∈ t.rename a b := by
  refine List.mem_map.2 ⟨(p, c), hm, ?_⟩
  simp [hne]

theorem snd_mem_rename {t : Tree} {a b : String} {e : String × FileContent}
    (hm : e ∈ t.rename a b) : ∃ p, (p, e.2) ∈ t := by
  rcases List.mem_map.1 hm with ⟨x, hx, heq⟩
  by_cases h : x.1 = a
  · rw [if_pos h] at heq
    exact ⟨x.1, by rw [← heq]; exact hx⟩
  · rw [if_neg h] at heq
    exact ⟨x.1, by rw [← heq]; exact hx⟩

theorem not_mem_rename_src {t : Tree} {a b : String} (hne : b ≠ a) (c : FileContent) :
    (a, c) ∉ t.rename a b := by
  intro hm
  rcases List.mem_map.1 hm with ⟨x, _, heq⟩
  by_cases h : x.1 = a
  · rw [if_pos h] at heq
    exact hne (congrArg Prod.fst heq)
  · rw [if_neg h] at heq
    exact h (congrArg Prod.fst heq)

theorem fst_mem_write {t : Tree} {p : String} {c : FileContent} (q : String) (d : FileContent)
    (hm : (p, c) ∈ t) : ∃ c', (p, c') ∈ t.write q d := by
  by_cases h : p = q
  · subst h
    exact ⟨d, List.mem_map.2 ⟨(p, c), hm, by simp⟩⟩
  · exact ⟨c, List.mem_map.2 ⟨(p, c), hm, by simp [h]⟩⟩

theorem fst_of_mem_write {t : Tree} {q : String} {d : FileContent} {e : String × FileContent}
    (hm : e ∈ t.write q d) : ∃ c, (e.1, c) ∈ t := by
  rcases List.mem_map.1 hm with ⟨x, hx, heq⟩
  by_cases h : x.1 = q
  · rw [if_pos h] at heq
    refine ⟨x.2, ?_⟩
    rw [← heq]
    show (q, x.2) ∈ t
    rw [← h]
    simpa using hx
  · rw [if_neg h] at heq
    exact ⟨x.2, by rw [← heq]; exact hx⟩

theorem mem_write_self_of_ne {t : Tree} {p : String} {c : FileContent} {q : String}
    (d : FileContent) (hm : (p, c) ∈ t) (hne : p ≠ q) : (p, c) ∈ t.write q d :=
  List.mem_map.2 ⟨(p, c), hm, by simp [hne]⟩

theorem existsFile_of_mem {t : Tree} {p : String} {c : FileContent} (hm : (p, c) ∈ t) :
    t.existsFile p = true := by
  unfold Tree.existsFile
  exact List.any_eq_true.2 ⟨(p, c), hm, by simp⟩

theorem mem_of_mem_delete {t : Tree} {p : String} {e : String × FileContent}
    (hm : e ∈ t.delete p) : e ∈ t :=
  (List.mem_filter.1 hm).1

theorem mem_delete_of_ne {t : Tree} {p : String} {e : String × FileContent}
    (hm : e ∈ t) (h1 : e.1 ≠ p) (h2 : hasPref (p ++ "/").data e.1.data = false) :
    e ∈ t.delete p := by
  unfold Tree.delete
  refine List.mem_filter.2 ⟨hm, ?_⟩
  have h2' : hasPref (p.data ++ ['/']) e.1.data = false := by simpa using h2
  simp [h1, h2']

/-! ## Lemmas: `updateImports` and `visitStep` -/

theorem fst_mem_updateImports {t : Tree} {p : String} {c : FileContent}
    (fp ol nl : String) (hm : (p, c) ∈ t) :
    ∃ c', (p, c') ∈ updateImports t fp ol nl := by
  unfold updateImports
  cases t.read fp with
  | none => exact ⟨c, hm⟩
  | some content => exact fst_mem_write fp _ hm

theorem not_mem_updateImports_of_fst {t : Tree} {p : String} (fp ol nl : String)
    (h : ∀ c, (p, c) ∉ t) : ∀ c, (p, c) ∉ updateImports t fp ol nl := by
  intro c hm
  unfold updateImports at hm
  cases hr : t.read fp with
  | none => rw [hr] at hm; exact h c hm
  | some content =>
    rw [hr] at hm
    rcases fst_of_mem_write hm with ⟨c', hc'⟩
    exact h c' hc'

/-- A file whose path does not contain the old integration folder is left
untouched by the visitor. -/
theorem visitStep_not_contains (oIF nIF : String) (flag : Bool) (ol nl : String)
    (t : Tree) (path : String) (h : strContains path oIF = false) :
    visitStep oIF nIF flag ol nl t path = t := by
  unfold visitStep
  rw [if_pos]
  simp [h]

theorem not_mem_rename_of {t : Tree} {a b x : String}
    (h : ∀ c, (x, c) ∉ t) (hb : b ≠ x) : ∀ c, (x, c) ∉ t.rename a b := by
  intro c hm
  rcases List.mem_map.1 hm with ⟨e, he, heq⟩
  by_cases hea : e.1 = a
  · rw [if_pos hea] at heq
    exact hb (congrArg Prod.fst heq)
  · rw [if_neg hea] at heq
    exact h c (heq ▸ he)

/-- The content moved under a renamed visited path is still present (possibly
rewritten) at the migrated path after the visit. -/
theorem visitStep_contains_tgt (oIF nIF : String) (flag : Bool) (ol nl : String)
    (t : Tree) (path : String) (h : strContains path oIF = true)
    (c : FileContent) (hm : (path, c) ∈ t) :
    ∃ c', (migratedPath oIF nIF path, c') ∈ visitStep oIF nIF flag ol nl t path := by
  unfold visitStep
  rw [if_neg (by simp [h])]
  have h1 : (migratedPath oIF nIF path, c) ∈ t.rename path (migratedPath oIF nIF path) :=
    mem_rename_tgt _ hm
  by_cases hcond : (flag && validFilesEndingsToUpdate.any fun e => strEnds path e) = true
  · rw [if_pos hcond]
    exact fst_mem_updateImports _ ol nl h1
  · rw [if_neg hcond]
    exact ⟨c, h1⟩

/-- After visiting a file whose path contains the old integration folder and
whose migrated path differs, nothing remains at the old path. -/
theorem visitStep_contains_src_gone (oIF nIF : String) (flag : Bool) (ol nl : String)
    (t : Tree) (path : String) (h : strContains path oIF = true)
    (hne : migratedPath oIF nIF path ≠ path) :
    ∀ c', (path, c') ∉ visitStep oIF nIF flag ol nl t path := by
  unfold visitStep
  rw [if_neg (by simp [h])]
  have h1 : ∀ c', (path, c') ∉ t.rename path (migratedPath oIF nIF path) :=
    fun c' => not_mem_rename_src hne c'
  by_cases hcond : (flag && validFilesEndingsToUpdate.any fun e => strEnds path e) = true
  · rw [if_pos hcond]
    exact not_mem_updateImports_of_fst _ ol nl h1
  · rw [if_neg hcond]
    exact h1

/-- With import rewriting off, each visit preserves file contents
(it only renames). -/
theorem visitStep_false_snd (oIF nIF ol nl : String) (t : Tree) (q : String)
    {e : String × FileContent} (hm : e ∈ visitStep oIF nIF false ol nl t q) :
    ∃ p, (p, e.2) ∈ t := by
  unfold visitStep at hm
  by_cases h : strContains q oIF = true
  · rw [if_neg (by simp [h])] at hm
    rw [if_neg (by simp)] at hm
    exact snd_mem_rename hm
  · rw [if_pos (by simpa using h)] at hm
    exact ⟨e.1, by simpa using hm⟩

theorem foldl_visit_false_snd (oIF nIF ol nl : String) :
    ∀ (l : List String) (t : Tree) (e : String × FileContent),
      e ∈ l.foldl (visitStep oIF nIF false ol nl) t → ∃ p, (p, e.2) ∈ t := by
  intro l
  induction l with
  | nil => intro t e hm; exact ⟨e.1, by simpa using hm⟩
  | cons q l ih =>
    intro t e hm
    rcases ih (visitStep oIF nIF false ol nl t q) e hm with ⟨p, hp⟩
    have := visitStep_false_snd oIF nIF ol nl t q (e := (p, e.2)) hp
    simpa using this

/-- With import rewriting off, a file whose path avoids the old integration
folder survives any visit untouched. -/
theorem visitStep_false_preserve (oIF nIF ol nl : String) (t : Tree) (q : String)
    {n : String} {c : FileContent} (hm : (n, c) ∈ t)
    (hn : strContains n oIF = false) :
    (n, c) ∈ visitStep oIF nIF false ol nl t q := by
  unfold visitStep
  by_cases h : strContains q oIF = true
  · rw [if_neg (by simp [h])]
    rw [if_neg (by simp)]
    have hne : n ≠ q := fun heq => by rw [heq, h] at hn; cases hn
    exact mem_rename_other _ hm hne
  · rw [if_pos (by simpa using h)]
    exact hm

theorem foldl_visit_false_preserve (oIF nIF ol nl : String) :
    ∀ (l : List String) (t : Tree) (n : String) (c : FileContent),
      (n, c) ∈ t → strContains n oIF = false →
      (n, c) ∈ l.foldl (visitStep oIF nIF false ol nl) t := by
  intro l
  induction l with
  | nil => intro t n c hm _; simpa using hm
  | cons q l ih =>
    intro t n c hm hn
    exact ih _ n c (visitStep_false_preserve oIF nIF ol nl t q hm hn) hn

/-- A path that is absent and is not the migration target of the visited file
stays absent. -/
theorem visitStep_no_new_fst (oIF nIF : String) (flag : Bool) (ol nl : String)
    (t : Tree) (q : String) {x : String}
    (h : ∀ c, (x, c) ∉ t) (hq : migratedPath oIF nIF q ≠ x) :
    ∀ c, (x, c) ∉ visitStep oIF nIF flag ol nl t q := by
  unfold visitStep
  by_cases hc : strContains q oIF = true
  · rw [if_neg (by simp [hc])]
    have h1 : ∀ c, (x, c) ∉ t.rename q (migratedPath oIF nIF q) :=
      not_mem_rename_of h hq
    by_cases hcond : (flag && validFilesEndingsToUpdate.any fun e => strEnds q e) = true
    · rw [if_pos hcond]
      exact not_mem_updateImports_of_fst _ ol nl h1
    · rw [if_neg hcond]
      exact h1
  · rw [if_pos (by simpa using hc)]
    exact h

theorem foldl_visit_no_new (oIF nIF : String) (flag : Bool) (ol nl : String) :
    ∀ (l : List String) (t : Tree) (x : String),
      (∀ c, (x, c) ∉ t) → (∀ q, q ∈ l → migratedPath oIF nIF q ≠ x) →
      ∀ c, (x, c) ∉ l.foldl (visitStep oIF nIF flag ol nl) t := by
  intro l
  induction l with
  | nil => intro t x h _ c hm; exact h c (by simpa using hm)
  | cons q l ih =>
    intro t x h hq
    exact ih _ x
      (visitStep_no_new_fst oIF nIF flag ol nl t q h (hq q (by simp)))
      (fun q' hq' => hq q' (by simp [hq']))

/-! ## Lemmas: rendered values and joined entries -/

theorem headOkay_append_left {a b : List Char} (h : headOkay a = true) :
    headOkay (a ++ b) = true := by
  cases a with
  | nil => cases h
  | cons c cs => exact h

theorem identStart_not_ws (c : Char) (h : isIdentStart c = true) : isWsChar c = false := by
  unfold isWsChar
  refine decide_eq_false ?_
  rintro (rfl | rfl | rfl | rfl) <;> exact absurd h (by decide)

theorem identChar_not_ws (c : Char) (h : isIdentChar c = true) : isWsChar c = false := by
  unfold isWsChar
  refine decide_eq_false ?_
  rintro (rfl | rfl | rfl | rfl) <;> exact absurd h (by decide)

/-- An unquoted-identifier key is in particular bordered by non-whitespace. -/
theorem identKey_plainKey (k : String) (h : identKey k = true) : plainKey k = true := by
  unfold identKey at h
  unfold plainKey
  cases hk : k.data with
  | nil => rw [hk] at h; cases h
  | cons c cs =>
    rw [hk] at h
    simp only [Bool.and_eq_true] at h
    obtain ⟨h1, h2⟩ := h
    rw [Bool.and_eq_true]
    refine ⟨?_, ?_⟩
    · show (! isWsChar c) = true
      rw [identStart_not_ws c h1]
      rfl
    · rw [List.reverse_cons]
      cases hrev : cs.reverse with
      | nil =>
        show headOkay ([] ++ [c]) = true
        show (! isWsChar c) = true
        rw [identStart_not_ws c h1]
        rfl
      | cons d rest =>
        have hd : d ∈ cs := by
          rw [← List.mem_reverse, hrev]
          simp
        have hdc : isIdentChar d = true := (List.all_eq_true.1 h2) d hd
        show headOkay ((d :: rest) ++ [c]) = true
        show (! isWsChar d) = true
        rw [identChar_not_ws d hdc]
        rfl

theorem digitsAux_eq_append : ∀ n acc, ∃ l, digitsAux n acc = l ++ acc := by
  intro n
  induction n using Nat.strong_induction_on with
  | _ n ih =>
    intro acc
    cases n with
    | zero => exact ⟨[], by rw [digitsAux]; rfl⟩
    | succ m =>
      have hlt : (m + 1) / 10 < m + 1 := Nat.div_lt_self (Nat.succ_pos m) (by omega)
      rcases ih _ hlt (Nat.digitChar ((m + 1) % 10) :: acc) with ⟨l, hl⟩
      refine ⟨l ++ [Nat.digitChar ((m + 1) % 10)], ?_⟩
      rw [digitsAux, hl]
      simp

theorem digitChar_not_ws : ∀ k, k < 10 → isWsChar (Nat.digitChar k) = false := by decide

theorem natDigits_lastOkay (n : Nat) : headOkay (natDigits n).reverse = true := by
  unfold natDigits
  by_cases h : n = 0
  · rw [if_pos h]
    decide
  · rw [if_neg h]
    cases n with
    | zero => exact absurd rfl h
    | succ m =>
      rcases digitsAux_eq_append ((m + 1) / 10) [Nat.digitChar ((m + 1) % 10)] with ⟨l, hl⟩
      rw [digitsAux, hl]
      rw [List.reverse_append]
      show headOkay (Nat.digitChar ((m + 1) % 10) :: l.reverse) = true
      have := digitChar_not_ws ((m + 1) % 10) (Nat.mod_lt _ (by omega))
      simp [headOkay, this]

theorem renderJValue_lastOkay (v : JValue) : headOkay (renderJValue v).data.reverse = true := by
  cases v with
  | str s =>
    show headOkay (("\x27" ++ s ++ "\x27").data).reverse = true
    rw [String.data_append, String.data_append, List.reverse_append]
    exact headOkay_append_left (by decide)
  | bool b => cases b <;> decide
  | num n => exact natDigits_lastOkay n
  | null => decide

theorem renderEntry_headOkay {e : String × JValue} (h : plainKey e.1 = true) :
    headOkay (renderEntry e).data = true := by
  unfold renderEntry
  rw [String.data_append, String.data_append]
  rw [List.append_assoc]
  refine headOkay_append_left ?_
  simp only [plainKey, Bool.and_eq_true] at h
  exact h.1

theorem renderEntry_lastOkay (e : String × JValue) :
    headOkay (renderEntry e).data.reverse = true := by
  unfold renderEntry
  rw [String.data_append, String.data_append]
  simp only [List.reverse_append]
  exact headOkay_append_left (renderJValue_lastOkay e.2)

theorem strJoin_data_mem (sep : String) :
    ∀ (l : List String) (x : String), x ∈ l →
      ∃ pre post, (strJoin sep l).data = pre ++ x.data ++ post := by
  intro l
  induction l with
  | nil => intro x hx; cases hx
  | cons a as ih =>
    intro x hx
    cases as with
    | nil =>
      rcases List.mem_singleton.1 hx with rfl
      exact ⟨[], [], by simp [strJoin]⟩
    | cons b bs =>
      rcases List.mem_cons.1 hx with rfl | hx'
      · refine ⟨[], (sep ++ strJoin sep (b :: bs)).data, ?_⟩
        show (x ++ sep ++ strJoin sep (b :: bs)).data = _
        simp [String.data_append]
      · rcases ih x hx' with ⟨pre, post, hp⟩
        refine ⟨(a ++ sep).data ++ pre, post, ?_⟩
        show (a ++ sep ++ strJoin sep (b :: bs)).data = _
        rw [String.data_append, hp]
        simp [String.data_append]

theorem strJoin_headOkay (sep : String) :
    ∀ (l : List String), l ≠ [] → (∀ s, s ∈ l → headOkay s.data = true) →
      headOkay (strJoin sep l).data = true := by
  intro l
  induction l with
  | nil => intro h; exact absurd rfl h
  | cons a as ih =>
    intro _ hall
    cases as with
    | nil => exact hall a (by simp)
    | cons b bs =>
      show headOkay (a ++ sep ++ strJoin sep (b :: bs)).data = true
      rw [String.data_append, String.data_append, List.append_assoc]
      exact headOkay_append_left (hall a (by simp))

theorem strJoin_lastOkay (sep : String) :
    ∀ (l : List String), l ≠ [] → (∀ s, s ∈ l → headOkay s.data.reverse = true) →
      headOkay (strJoin sep l).data.reverse = true := by
  intro l
  induction l with
  | nil => intro h; exact absurd rfl h
  | cons a as ih =>
    intro _ hall
    cases as with
    | nil => exact hall a (by simp)
    | cons b bs =>
      show headOkay ((a ++ sep ++ strJoin sep (b :: bs)).data).reverse = true
      rw [String.data_append, String.data_append]
      simp only [List.reverse_append]
      exact headOkay_append_left
        (ih (by simp) (fun s hs => hall s (List.mem_cons_of_mem _ hs)))

theorem dropWhile_of_headOkay {l : List Char} (h : headOkay l = true) :
    l.dropWhile isWsChar = l := by
  cases l with
  | nil => rfl
  | cons c cs =>
    have : isWsChar c = false := by
      simp only [headOkay, Bool.not_eq_true'] at h
      exact h
    simp [List.dropWhile_cons, this]

/-- `inspect(o).trim().slice(1,-1).trim()` recovers the joined entry list for
a non-empty object whose keys are bordered by non-whitespace. -/
theorem convertedConfig_eq (o : JObject) (ho : o ≠ [])
    (hkeys : ∀ e, e ∈ o → plainKey e.1 = true) :
    convertedConfig o = strJoin ", " (o.map renderEntry) := by
  have hmapne : o.map renderEntry ≠ [] := by
    cases o with
    | nil => exact absurd rfl ho
    | cons e es => simp
  have hJh : headOkay (strJoin ", " (o.map renderEntry)).data = true := by
    refine strJoin_headOkay _ _ hmapne ?_
    intro s hs
    rcases List.mem_map.1 hs with ⟨e, he, rfl⟩
    exact renderEntry_headOkay (hkeys e he)
  have hJl : headOkay (strJoin ", " (o.map renderEntry)).data.reverse = true := by
    refine strJoin_lastOkay _ _ hmapne ?_
    intro s hs
    rcases List.mem_map.1 hs with ⟨e, he, rfl⟩
    exact renderEntry_lastOkay e
  unfold convertedConfig inspectObj
  rw [if_neg ho]
  have hdata : ("\x7b " ++ strJoin ", " (o.map renderEntry) ++ " \x7d").data =
      '\x7b' :: ' ' :: ((strJoin ", " (o.map renderEntry)).data ++ [' ', '\x7d']) := by
    simp [String.data_append]
  have htrim1 : strTrim ("\x7b " ++ strJoin ", " (o.map renderEntry) ++ " \x7d") =
      "\x7b " ++ strJoin ", " (o.map renderEntry) ++ " \x7d" := by
    unfold strTrim
    rw [hdata]
    have h1 : ('\x7b' :: ' ' ::
        ((strJoin ", " (o.map renderEntry)).data ++ [' ', '\x7d'])).dropWhile isWsChar =
        '\x7b' :: ' ' :: ((strJoin ", " (o.map renderEntry)).data ++ [' ', '\x7d']) := by
      rw [List.dropWhile_cons, if_neg (by decide)]
    rw [h1]
    have hrev : ('\x7b' :: ' ' ::
        ((strJoin ", " (o.map renderEntry)).data ++ [' ', '\x7d'])).reverse =
        '\x7d' :: ' ' :: ((strJoin ", " (o.map renderEntry)).data.reverse ++ [' ', '\x7b']) := by
      simp
    have h2 : ('\x7d' :: ' ' ::
        ((strJoin ", " (o.map renderEntry)).data.reverse ++ [' ', '\x7b'])).dropWhile isWsChar =
        '\x7d' :: ' ' :: ((strJoin ", " (o.map renderEntry)).data.reverse ++ [' ', '\x7b']) := by
      rw [List.dropWhile_cons, if_neg (by decide)]
    rw [hrev, h2, ← hrev, List.reverse_reverse, ← hdata]
  rw [htrim1]
  unfold slice1m1
  rw [hdata]
  have hdrop : ('\x7b' :: ' ' :: ((strJoin ", " (o.map renderEntry)).data ++ [' ', '\x7d'])).drop 1 =
      ' ' :: ((strJoin ", " (o.map renderEntry)).data ++ [' ', '\x7d']) := rfl
  rw [hdrop]
  have hlast : (' ' :: ((strJoin ", " (o.map renderEntry)).data ++ [' ', '\x7d'])).dropLast =
      ' ' :: ((strJoin ", " (o.map renderEntry)).data ++ [' ']) := by
    have : (' ' :: ((strJoin ", " (o.map renderEntry)).data ++ [' ', '\x7d'])) =
        (' ' :: ((strJoin ", " (o.map renderEntry)).data ++ [' '])) ++ ['\x7d'] := by
      simp
    rw [this, List.dropLast_concat]
  rw [hlast]
  unfold strTrim
  have hd1 : ((' ' :: ((strJoin ", " (o.map renderEntry)).data ++ [' '])) :
      List Char).dropWhile isWsChar = (strJoin ", " (o.map renderEntry)).data ++ [' '] := by
    rw [List.dropWhile_cons]
    rw [if_pos (by decide)]
    exact dropWhile_of_headOkay (headOkay_append_left hJh)
  show String.mk ((((' ' :: ((strJoin ", " (o.map renderEntry)).data ++ [' '])).dropWhile
      isWsChar).reverse.dropWhile isWsChar).reverse) = _
  rw [hd1]
  have hd2 : (((strJoin ", " (o.map renderEntry)).data ++ [' ']).reverse).dropWhile isWsChar =
      (strJoin ", " (o.map renderEntry)).data.reverse := by
    rw [List.reverse_append]
    show ((' ' :: (strJoin ", " (o.map renderEntry)).data.reverse) :
      List Char).dropWhile isWsChar = _
    rw [List.dropWhile_cons, if_pos (by decide)]
    exact dropWhile_of_headOkay hJl
  rw [hd2, List.reverse_reverse]

/-! ## Claim C2 -/

/-- C2: for every legacy config and tree, the translated config's
`e2e.supportFile` is `src/support/e2e.ts` exactly when the (destructured)
legacy `supportFile` is truthy and `<sourceRoot>/support/index.ts` exists in
the tree, and otherwise is the legacy value (including `false`);
`e2e.integrationFolder` is `src/e2e` exactly when the directory
`<sourceRoot>/integration` exists in the tree, and otherwise is the legacy
value.  Existence is the devkit `tree.exists` probe, `Tree.existsPath`: a file
at the path itself or — as for a populated `integration` directory — any file
below it. -/
theorem claim_C2_translated_supportFile_integrationFolder
    (tree : Tree) (sourceRoot : String) (cfg : JObject) :
    getKey (createNewCypressConfig tree sourceRoot cfg).e2e "supportFile" =
      some (if ((getKey cfg "supportFile").getD (.str "src/support/e2e.ts")).truthy &&
              tree.existsPath (joinPathFragments [sourceRoot, "support", "index.ts"]) then
          .str "src/support/e2e.ts"
        else (getKey cfg "supportFile").getD (.str "src/support/e2e.ts")) ∧
    getKey (createNewCypressConfig tree sourceRoot cfg).e2e "integrationFolder" =
      some (if tree.existsPath (joinPathFragments [sourceRoot, "integration"]) then
          .str "src/e2e"
        else (getKey cfg "integrationFolder").getD (.str "src/e2e")) := by
  constructor
  · show getKey (setKey _ "integrationFolder" _) "supportFile" = _
    rw [getKey_setKey_ne _ _ _ _ (by decide)]
    exact getKey_setKey_self _ _ _
  · exact getKey_setKey_self _ _ _

/-! ## Claim C3 -/

/-- C3: the eligibility check reports `shouldUpgrade = true` exactly when the
target exists, the installed major version is at least 8, the executor is the
legacy `@nrwl/cypress:cypress` identifier, the old JSON config exists in the
tree and the new TS config does not; and when the target does not exist, both
returned config paths are undefined. -/
theorem claim_C3_verify_eligibility
    (v : Nat) (tree : Tree) (pc : ProjectConfiguration) (target : String) :
    ((verifyProjectForUpgrade v tree pc target).shouldUpgrade = true ↔
      ∃ t, pc.getTarget target = some t ∧ 8 ≤ v ∧
        t.executor = some "@nrwl/cypress:cypress" ∧
        ∃ pj pt,
          (verifyProjectForUpgrade v tree pc target).cypressConfigPathJson = some pj ∧
          (verifyProjectForUpgrade v tree pc target).cypressConfigPathTs = some pt ∧
          tree.existsFile pj = true ∧ tree.existsFile pt = false) ∧
    (pc.getTarget target = none →
      (verifyProjectForUpgrade v tree pc target).cypressConfigPathJson = none ∧
      (verifyProjectForUpgrade v tree pc target).cypressConfigPathTs = none) := by
  unfold verifyProjectForUpgrade
  cases hT : pc.getTarget target with
  | none =>
    refine ⟨?_, fun _ => ⟨rfl, rfl⟩⟩
    simp
  | some t =>
    refine ⟨?_, fun h => by cases h⟩
    dsimp only
    by_cases hv : v < 8
    · rw [if_pos hv]
      simp only [show ¬ (8 ≤ v) from by omega]
      simp
    · rw [if_neg hv]
      dsimp only
      simp only [Bool.and_eq_true, decide_eq_true_eq, Bool.not_eq_true']
      constructor
      · rintro ⟨hex, hj, hts⟩
        exact ⟨t, rfl, by omega, hex, _, _, rfl, rfl, hj, hts⟩
      · rintro ⟨t', ht', _, hex, pj, pt, hpj, hpt, hj, hts⟩
        injection ht' with ht'
        subst ht'
        injection hpj with hpj
        injection hpt with hpt
        subst hpj; subst hpt
        exact ⟨hex, hj, hts⟩

/-- Concrete instance of C3: an eligible project (version 10, legacy executor,
`cypress.json` present, `cypress.config.ts` absent) is reported upgradable,
and a project without the target gets undefined paths. -/
theorem claim_C3_verify_eligibility_witness :
    (∃ t, ProjectConfiguration.getTarget
        ⟨"apps/a-e2e", "apps/a-e2e/src",
          [("e2e", ⟨some "@nrwl/cypress:cypress", none⟩)]⟩ "e2e" = some t ∧ 8 ≤ 10 ∧
      t.executor = some "@nrwl/cypress:cypress" ∧
      ∃ pj pt,
        (verifyProjectForUpgrade 10 [("apps/a-e2e/cypress.json", [])]
          ⟨"apps/a-e2e", "apps/a-e2e/src",
            [("e2e", ⟨some "@nrwl/cypress:cypress", none⟩)]⟩ "e2e").cypressConfigPathJson =
          some pj ∧
        (verifyProjectForUpgrade 10 [("apps/a-e2e/cypress.json", [])]
          ⟨"apps/a-e2e", "apps/a-e2e/src",
            [("e2e", ⟨some "@nrwl/cypress:cypress", none⟩)]⟩ "e2e").cypressConfigPathTs =
          some pt ∧
        Tree.existsFile [("apps/a-e2e/cypress.json", [])] pj = true ∧
        Tree.existsFile [("apps/a-e2e/cypress.json", [])] pt = false) ∧
    ((verifyProjectForUpgrade 10 [] ⟨"r", "r/src", []⟩ "e2e").cypressConfigPathJson = none ∧
      (verifyProjectForUpgrade 10 [] ⟨"r", "r/src", []⟩ "e2e").cypressConfigPathTs = none) :=
  ⟨(claim_C3_verify_eligibility 10 [("apps/a-e2e/cypress.json", [])]
      ⟨"apps/a-e2e", "apps/a-e2e/src",
        [("e2e", ⟨some "@nrwl/cypress:cypress", none⟩)]⟩ "e2e").1.mp (by decide),
    (claim_C3_verify_eligibility 10 [] ⟨"r", "r/src", []⟩ "e2e").2 (by decide)⟩

/-! ## Claim C8 -/

/-- C8: the translated config's `e2e.specPattern` is always the fixed glob,
whatever the legacy config holds, and the top-level `baseUrl` field is present
exactly when the legacy `baseUrl` value is truthy. -/
theorem claim_C8_specPattern_and_baseUrl
    (tree : Tree) (sourceRoot : String) (cfg : JObject) :
    getKey (createNewCypressConfig tree sourceRoot cfg).e2e "specPattern" =
      some (.str specPatternGlob) ∧
    (createNewCypressConfig tree sourceRoot cfg).baseUrl.isSome =
      ((getKey cfg "baseUrl").getD .null).truthy := by
  constructor
  · show getKey (setKey _ "integrationFolder" _) "specPattern" = _
    rw [getKey_setKey_ne _ _ _ _ (by decide)]
    rw [getKey_setKey_ne _ _ _ _ (by decide)]
    exact getKey_setKey_self _ _ _
  · show (if ((getKey cfg "baseUrl").getD .null).truthy then
        some ((getKey cfg "baseUrl").getD .null) else none).isSome = _
    by_cases h : ((getKey cfg "baseUrl").getD .null).truthy = true
    · rw [if_pos h, h]; rfl
    · rw [if_neg h]
      simp only [Option.isSome_none]
      exact (Bool.eq_false_iff.2 h).symm

/-! ## Lemmas: paths that avoid the old integration folder -/

/-- A path that does not contain `oIF` as a substring is neither `oIF` itself
nor below `oIF/`. -/
theorem not_contains_escapes_delete {n oIF : String} (h : strContains n oIF = false) :
    n ≠ oIF ∧ hasPref (oIF ++ "/").data n.data = false := by
  constructor
  · rintro rfl
    rw [show strContains n n = listContains n.data n.data from rfl,
      listContains_self] at h
    cases h
  · by_contra hcon
    have hp : hasPref (oIF ++ "/").data n.data = true := by
      cases hh : hasPref (oIF ++ "/").data n.data
      · exact absurd hh hcon
      · rfl
    rcases (hasPref_iff _ _).1 hp with ⟨r, hr⟩
    rw [String.data_append] at hr
    have : listContains oIF.data n.data = true := by
      refine (listContains_iff _ _).2 ⟨[], "/".data ++ r, ?_⟩
      simpa using hr
    rw [show strContains n oIF = listContains oIF.data n.data from rfl, this] at h
    cases h

theorem joinPathFragments_three (s a b : String) (ha : a ≠ "") (hb : b ≠ "") :
    joinPathFragments [s, a, b] =
      if s = "" then a ++ "/" ++ b else s ++ "/" ++ (a ++ "/" ++ b) := by
  by_cases hs : s = ""
  · subst hs
    simp [joinPathFragments, ha, hb, strJoin]
  · simp [joinPathFragments, hs, ha, hb, strJoin]

theorem join_support_e2e_ne_index (s : String) :
    joinPathFragments [s, "support", "e2e.ts"] ≠ joinPathFragments [s, "support", "index.ts"] := by
  rw [joinPathFragments_three s _ _ (by decide) (by decide),
    joinPathFragments_three s _ _ (by decide) (by decide)]
  by_cases hs : s = ""
  · rw [if_pos hs, if_pos hs]
    decide
  · rw [if_neg hs, if_neg hs]
    intro h
    have hd := congrArg String.data h
    simp only [String.data_append] at hd
    have htail := List.append_cancel_left hd
    exact absurd htail (by decide)

/-! ## Lemmas: node path functions on structured paths -/

theorem foldl_afterLastSlash_no_slash (b : List Char) (hb : '/' ∉ b) (acc : List Char) :
    b.foldl (fun acc c => if c = '/' then [] else acc ++ [c]) acc = acc ++ b := by
  induction b generalizing acc with
  | nil => simp
  | cons c cs ih =>
    have hc : c ≠ '/' := fun h => hb (h ▸ List.mem_cons_self c cs)
    have hcs : '/' ∉ cs := fun h => hb (List.mem_cons_of_mem c h)
    simp only [List.foldl_cons, if_neg hc]
    rw [ih hcs]
    simp

theorem afterLastSlash_append (a b : List Char) (hb : '/' ∉ b) :
    afterLastSlash (a ++ '/' :: b) = b := by
  unfold afterLastSlash
  rw [show a ++ '/' :: b = (a ++ ['/']) ++ b by simp, List.foldl_append, List.foldl_append]
  simp only [List.foldl_cons, List.foldl_nil, if_pos]
  exact (foldl_afterLastSlash_no_slash b hb []).trans (by simp)

theorem afterLastSlash_no_slash (l : List Char) (h : '/' ∉ l) : afterLastSlash l = l := by
  unfold afterLastSlash
  exact (foldl_afterLastSlash_no_slash l h []).trans (by simp)

theorem beforeLastSlash_no_slash (b : List Char) (h : '/' ∉ b) :
    beforeLastSlash b = none := by
  induction b with
  | nil => rfl
  | cons c cs ih =>
    have hc : c ≠ '/' := fun hcc => h (hcc ▸ List.mem_cons_self c cs)
    have hcs : '/' ∉ cs := fun hm => h (List.mem_cons_of_mem c hm)
    simp only [beforeLastSlash, ih hcs, if_neg hc]

theorem beforeLastSlash_append (a b : List Char) (hb : '/' ∉ b) :
    beforeLastSlash (a ++ '/' :: b) = some a := by
  induction a with
  | nil =>
    simp only [List.nil_append, beforeLastSlash, beforeLastSlash_no_slash b hb, if_pos]
  | cons x xs ih =>
    simp only [List.cons_append, beforeLastSlash]
    rw [show xs.append ('/' :: b) = xs ++ '/' :: b from rfl, ih]

theorem takeWhile_append_stop (p : Char → Bool) (l1 : List Char) (x : Char) (l2 : List Char)
    (h1 : ∀ c, c ∈ l1 → p c = true) (hx : p x = false) :
    (l1 ++ x :: l2).takeWhile p = l1 := by
  induction l1 with
  | nil => simp [List.takeWhile_cons, hx]
  | cons c cs ih =>
    have hc := h1 c (List.mem_cons_self c cs)
    simp only [List.cons_append, List.takeWhile_cons, hc]
    rw [ih (fun c hm => h1 c (List.mem_cons_of_mem _ hm))]
    simp

theorem extname_of_decomp (p : String) (n e : List Char)
    (hdec : afterLastSlash p.data = n ++ '.' :: e)
    (hn : n ≠ []) (he : '.' ∉ e) :
    extname p = ⟨'.' :: e⟩ := by
  unfold extname
  rw [hdec]
  dsimp only
  have hrev : (n ++ '.' :: e).reverse = e.reverse ++ '.' :: n.reverse := by
    simp
  have htw : ((n ++ '.' :: e).reverse.takeWhile (fun c => c ≠ '.')).reverse = e := by
    rw [hrev, takeWhile_append_stop _ e.reverse '.' n.reverse
      (fun c hm => by
        simp only [decide_eq_true_eq]
        exact fun hc => he (hc ▸ List.mem_reverse.1 hm))
      (by simp)]
    simp
  rw [htw]
  have hle : e.length + 1 ≤ (n ++ '.' :: e).length := by
    simp only [List.length_append, List.length_cons]
    omega
  have hne : ¬ (e.length + 1 = (n ++ '.' :: e).length) := by
    simp only [List.length_append, List.length_cons]
    have : n.length ≠ 0 := fun h => hn (List.length_eq_zero.1 h)
    omega
  rw [if_pos hle, if_neg hne]

theorem basenameExt_of_decomp (p : String) (n e : List Char)
    (hdec : afterLastSlash p.data = n ++ '.' :: e) (hn : n ≠ []) :
    basenameExt p ⟨'.' :: e⟩ = ⟨n⟩ := by
  unfold basenameExt
  rw [hdec]
  have h1 : ('.' :: e : List Char) ≠ [] := by simp
  have h2 : n ++ '.' :: e ≠ '.' :: e := by
    intro h
    have := congrArg List.length h
    simp only [List.length_append, List.length_cons] at this
    exact hn (List.length_eq_zero.1 (by omega))
  have h3 : hasSuff ('.' :: e) (n ++ '.' :: e) = true :=
    (hasSuff_iff _ _).2 ⟨n, rfl⟩
  rw [if_pos ⟨h1, h2, h3⟩]
  have hlen : (n ++ '.' :: e).length - ('.' :: e).length = n.length := by
    simp only [List.length_append, List.length_cons]
    omega
  rw [hlen, show n ++ '.' :: e = n ++ ('.' :: e) from rfl, List.take_left]

theorem dirname_of_append (p : String) (a b : List Char) (hp : p.data = a ++ '/' :: b)
    (hb : '/' ∉ b) (ha : a ≠ []) : dirname p = ⟨a⟩ := by
  unfold dirname
  rw [hp, beforeLastSlash_append a b hb]
  cases a with
  | nil => exact absurd rfl ha
  | cons x xs => rfl

theorem data_ne_nil_of_ne_empty {s : String} (h : s ≠ "") : s.data ≠ [] := by
  intro hd
  apply h
  cases s with
  | mk l => cases hd; rfl

/-! ## Claim C1 -/

/-- C1 fails as stated: for a visited file whose *directory* component also
contains `.spec.`, the code replaces the first occurrence of `.spec.` in the
whole migrated path, not the occurrence in the filename.  Concretely, visiting
`r/src/int/a.spec.x/b.spec.ts` renames it to `r/src/e2e/a.cy.x/b.spec.ts`,
while the claim demands `r/src/e2e/a.spec.x/b.cy.ts`. -/
theorem claim_C1_counterexample :
    visitStep "r/src/int" "r/src/e2e" false "" ""
        [("r/src/int/a.spec.x/b.spec.ts", [])] "r/src/int/a.spec.x/b.spec.ts"
      = [("r/src/e2e/a.cy.x/b.spec.ts", [])] ∧
    claimedMigratedPath "r/src/int" "r/src/e2e" "r/src/int/a.spec.x/b.spec.ts"
      = "r/src/e2e/a.spec.x/b.cy.ts" ∧
    ("r/src/e2e/a.spec.x/b.cy.ts", ([] : FileContent)) ∉
      visitStep "r/src/int" "r/src/e2e" false "" ""
        [("r/src/int/a.spec.x/b.spec.ts", [])] "r/src/int/a.spec.x/b.spec.ts" := by
  refine ⟨by decide, by decide, by decide⟩

/-- C1 (amended): a visited file whose path does not contain the old
integration folder is never renamed; a visited file whose path does contain it
has its content moved to `migratedPath` — the path obtained by replacing the
*first occurrence* of the old integration folder with the new one and then,
when the basename contains `.spec.`, the first occurrence of `.spec.` in the
whole resulting path with `.cy.` — and (when that differs from the original
path) nothing remains at the old path.  The folder substitution is the
leftmost-occurrence splice. -/
theorem claim_C1_amended (oIF nIF : String) (flag : Bool) (ol nl : String)
    (t : Tree) (path : String) :
    (strContains path oIF = false → visitStep oIF nIF flag ol nl t path = t) ∧
    (strContains path oIF = true →
      (∀ c, (path, c) ∈ t →
        ∃ c', (migratedPath oIF nIF path, c') ∈ visitStep oIF nIF flag ol nl t path) ∧
      (migratedPath oIF nIF path ≠ path →
        ∀ c, (path, c) ∉ visitStep oIF nIF flag ol nl t path) ∧
      (∃ pre post, path.data = pre ++ oIF.data ++ post ∧
        (jsReplace path oIF nIF).data = pre ++ nIF.data ++ post ∧
        ∀ pre2 post2, path.data = pre2 ++ oIF.data ++ post2 →
          pre.length ≤ pre2.length)) := by
  refine ⟨fun h => visitStep_not_contains oIF nIF flag ol nl t path h, fun h => ⟨?_, ?_, ?_⟩⟩
  · exact fun c hc => visitStep_contains_tgt oIF nIF flag ol nl t path h c hc
  · exact fun hne c => visitStep_contains_src_gone oIF nIF flag ol nl t path h hne c
  · rcases replaceFirstL_spec oIF.data nIF.data path.data h with ⟨pre, post, h1, h2, h3⟩
    exact ⟨pre, post, h1, h2, h3⟩

/-- Concrete instance of the amended C1: `r/src/integration/foo.spec.ts` has
its content moved to `r/src/e2e/foo.cy.ts`. -/
theorem claim_C1_amended_witness :
    strContains "r/src/integration/foo.spec.ts" "r/src/integration" = true ∧
    (∃ c', ("r/src/e2e/foo.cy.ts", c') ∈
      visitStep "r/src/integration" "r/src/e2e" true "support" "support/e2e"
        [("r/src/integration/foo.spec.ts", [Tok.other "x"])]
        "r/src/integration/foo.spec.ts") := by
  refine ⟨by decide, ?_⟩
  have h := (claim_C1_amended "r/src/integration" "r/src/e2e" true "support" "support/e2e"
    [("r/src/integration/foo.spec.ts", [Tok.other "x"])]
    "r/src/integration/foo.spec.ts").2 (by decide)
  have h2 := h.1 [Tok.other "x"] (by decide)
  have hmp : migratedPath "r/src/integration" "r/src/e2e" "r/src/integration/foo.spec.ts"
      = "r/src/e2e/foo.cy.ts" := by decide
  rw [← hmp]
  exact h2

/-! ## Claim C4 -/

/-- C4 fails as stated: the rewriter replaces the *first* occurrence of the
old leaf in a matched literal's value, not its suffix occurrence.  The literal
`support/support` ends with the old leaf `support`, but the code rewrites it
to `support/e2e/support`, while the claim demands the suffix replacement
`support/support/e2e`. -/
theorem claim_C4_counterexample :
    strEnds "support/support" "support" = true ∧
    updateImportsContent "support" "support/e2e" [Tok.lit singleQuote "support/support"]
      = [Tok.lit singleQuote "support/e2e/support"] ∧
    claimedRewriteValue "support" "support/e2e" "support/support" = "support/support/e2e" ∧
    ("support/e2e/support" : String) ≠ "support/support/e2e" := by
  refine ⟨by decide, by decide, by decide, by decide⟩

/-- C4 (amended): the rewriter changes exactly the string literals whose value
ends with the old leaf; a matched literal becomes a single-quoted literal
whose value is the *leftmost-occurrence* splice of the new leaf for the old
one (which coincides with suffix replacement whenever the old leaf occurs only
once, as in `../support` → `../support/e2e`); all other tokens are kept
verbatim. -/
theorem claim_C4_amended (oldLeaf newLeaf : String) (content : FileContent) (i : Nat) :
    (∀ d v, content[i]? = some (.lit d v) → strEnds v oldLeaf = false →
      (updateImportsContent oldLeaf newLeaf content)[i]? = some (.lit d v)) ∧
    (∀ s, content[i]? = some (.other s) →
      (updateImportsContent oldLeaf newLeaf content)[i]? = some (.other s)) ∧
    (∀ d v, content[i]? = some (.lit d v) → strEnds v oldLeaf = true →
      ∃ pre post, v.data = pre ++ oldLeaf.data ++ post ∧
        (updateImportsContent oldLeaf newLeaf content)[i]? =
          some (.lit singleQuote ⟨pre ++ newLeaf.data ++ post⟩) ∧
        ∀ pre2 post2, v.data = pre2 ++ oldLeaf.data ++ post2 →
          pre.length ≤ pre2.length) := by
  have hmap : ∀ tok, content[i]? = some tok →
      (updateImportsContent oldLeaf newLeaf content)[i]? =
        some (rewriteTok oldLeaf newLeaf tok) := by
    intro tok htok
    unfold updateImportsContent
    rw [List.getElem?_map, htok]
    rfl
  refine ⟨?_, ?_, ?_⟩
  · intro d v h hend
    rw [hmap _ h]
    simp [rewriteTok, hend]
  · intro s h
    rw [hmap _ h]
    rfl
  · intro d v h hend
    have hocc : listContains oldLeaf.data v.data = true :=
      listContains_of_hasSuff _ _ hend
    rcases replaceFirstL_spec oldLeaf.data newLeaf.data v.data hocc with ⟨pre, post, h1, h2, h3⟩
    refine ⟨pre, post, h1, ?_, h3⟩
    rw [hmap _ h]
    simp only [rewriteTok, hend, if_pos]
    have : jsReplace v oldLeaf newLeaf = ⟨pre ++ newLeaf.data ++ post⟩ := by
      unfold jsReplace
      rw [h2]
    rw [this]

/-- Concrete instance of the amended C4: the single-occurrence literal
`../support` is rewritten to `../support/e2e`. -/
theorem claim_C4_amended_witness :
    strEnds "../support" "support" = true ∧
    (∃ pre post, ("../support").data = pre ++ ("support").data ++ post ∧
      (updateImportsContent "support" "support/e2e"
          [Tok.lit singleQuote "../support"])[0]? =
        some (.lit singleQuote ⟨pre ++ ("support/e2e").data ++ post⟩) ∧
      ∀ pre2 post2, ("../support").data = pre2 ++ ("support").data ++ post2 →
        pre.length ≤ pre2.length) := by
  refine ⟨by decide, ?_⟩
  exact (claim_C4_amended "support" "support/e2e"
    [Tok.lit singleQuote "../support"] 0).2.2 singleQuote "../support" rfl (by decide)

/-! ## Claim C5 -/

/-- C5 fails as stated: a single derivation is *not* applied to both paths.
For the old support file the code keeps only the basename (no parent prefix)
when it is not `index`: `apps/x/src/sup/main.ts` yields `main`, while the
claim's derivation demands `sup/main`.  For the new support file the code has
no `index` special case: `a/support/index.ts` yields `support/index`, while
the claim's derivation demands `support`. -/
theorem claim_C5_counterexample :
    oldImportLeaf "apps/x/src/sup/main.ts" = "main" ∧
    claimedImportLeaf "apps/x/src/sup/main.ts" = "sup/main" ∧
    ("main" : String) ≠ "sup/main" ∧
    newImportLeaf "a/support/index.ts" = "support/index" ∧
    claimedImportLeaf "a/support/index.ts" = "support" ∧
    ("support/index" : String) ≠ "support" := by
  refine ⟨by decide, by decide, by decide, by decide, by decide, by decide⟩

/-- C5 (amended): for a support file `<d>/<leafdir>/<name>.<ext>`, the *old*
leaf is the bare basename without extension, except that an `index` basename
collapses to the parent directory name; the *new* leaf is always
`<leafdir>/<name>` with no `index` special case.  In particular the old
support file `apps/app-e2e/src/support/index.ts` yields `support` and the new
support file `apps/app-e2e/src/support/e2e.ts` yields `support/e2e`, as the
claim's examples state. -/
theorem claim_C5_amended (d leafdir name ext : String)
    (hname_slash : '/' ∉ name.data) (hname_ne : name ≠ "")
    (hext_slash : '/' ∉ ext.data) (hext_dot : '.' ∉ ext.data)
    (hleaf_slash : '/' ∉ leafdir.data) (hleaf_ne : leafdir ≠ "") :
    (oldImportLeaf (d ++ "/" ++ leafdir ++ "/" ++ name ++ "." ++ ext) =
      if name = "index" then leafdir else name) ∧
    (newImportLeaf (d ++ "/" ++ leafdir ++ "/" ++ name ++ "." ++ ext) =
      leafdir ++ "/" ++ name) ∧
    oldImportLeaf "apps/app-e2e/src/support/index.ts" = "support" ∧
    newImportLeaf "apps/app-e2e/src/support/e2e.ts" = "support/e2e" := by
  have hb : '/' ∉ (name.data ++ '.' :: ext.data) := by
    intro hm
    rcases List.mem_append.1 hm with hm | hm
    · exact hname_slash hm
    · rcases List.mem_cons.1 hm with hm | hm
      · cases hm
      · exact hext_slash hm
  have hp : (d ++ "/" ++ leafdir ++ "/" ++ name ++ "." ++ ext).data =
      (d.data ++ '/' :: leafdir.data) ++ '/' :: (name.data ++ '.' :: ext.data) := by
    simp [String.data_append]
  have h_after : afterLastSlash (d ++ "/" ++ leafdir ++ "/" ++ name ++ "." ++ ext).data =
      name.data ++ '.' :: ext.data := by
    rw [hp]
    exact afterLastSlash_append _ _ hb
  have hn : name.data ≠ [] := data_ne_nil_of_ne_empty hname_ne
  have hext : extname (d ++ "/" ++ leafdir ++ "/" ++ name ++ "." ++ ext) =
      ⟨'.' :: ext.data⟩ :=
    extname_of_decomp _ name.data ext.data h_after hn hext_dot
  have hbe : basenameExt (d ++ "/" ++ leafdir ++ "/" ++ name ++ "." ++ ext)
      ⟨'.' :: ext.data⟩ = name :=
    basenameExt_of_decomp _ name.data ext.data h_after hn
  have hdir : dirname (d ++ "/" ++ leafdir ++ "/" ++ name ++ "." ++ ext) =
      ⟨d.data ++ '/' :: leafdir.data⟩ :=
    dirname_of_append _ _ _ hp hb (by simp)
  have hparent : basename (dirname (d ++ "/" ++ leafdir ++ "/" ++ name ++ "." ++ ext)) =
      leafdir := by
    rw [hdir]
    unfold basename
    rw [show (⟨d.data ++ '/' :: leafdir.data⟩ : String).data =
      d.data ++ '/' :: leafdir.data from rfl]
    rw [afterLastSlash_append _ _ hleaf_slash]
  refine ⟨?_, ?_, by decide, by decide⟩
  · unfold oldImportLeaf
    rw [hext, hbe, hparent]
  · unfold newImportLeaf
    rw [hext, hbe, hparent]
    unfold joinPathFragments
    dsimp only
    have hfil : ([leafdir, name].filter (fun f => f ≠ "")) = [leafdir, name] := by
      simp [hleaf_ne, hname_ne]
    rw [hfil]
    simp [strJoin]

/-- Concrete instance of the amended C5: for `apps/x/src/sup/main.ts` the new
leaf is `sup/main`. -/
theorem claim_C5_amended_witness :
    ('/' ∉ ("main" : String).data) ∧
    newImportLeaf ("apps/x/src" ++ "/" ++ "sup" ++ "/" ++ "main" ++ "." ++ "ts") =
      "sup" ++ "/" ++ "main" :=
  ⟨by decide,
    (claim_C5_amended "apps/x/src" "sup" "main" "ts" (by decide) (by decide)
      (by decide) (by decide) (by decide) (by decide)).2.1⟩

/-! ## Claim C6 -/

/-- Unfolding of `updateProjectPaths` in the `supportFile: false` branch: no
rewriting of imports happens, and only the conventional default support file
(when present) is renamed before the visitation. -/
theorem updateProjectPaths_false_eq (root sourceRoot tsIF : String) (tsSF : JValue)
    (jsonIF : String) (tree : Tree) :
    updateProjectPaths root sourceRoot tsIF tsSF jsonIF (.bool false) tree =
      (let dsf := joinPathFragments [sourceRoot, "support", "index.ts"]
       let ndp := joinPathFragments [sourceRoot, "support", "e2e.ts"]
       let t1 := if tree.existsFile dsf then tree.rename dsf ndp else tree
       let oIF := joinPathFragments [root, jsonIF]
       let visited := (t1.filesUnder sourceRoot).foldl
         (visitStep oIF (joinPathFragments [root, tsIF]) false "" "") t1
       if visited.childrenEmpty oIF then visited.delete oIF else visited) := rfl

theorem pipeline_snd (oIF nIF ol nl : String) (t1 : Tree) (sourceRoot : String)
    (e : String × FileContent)
    (he : e ∈ (if ((t1.filesUnder sourceRoot).foldl
          (visitStep oIF nIF false ol nl) t1).childrenEmpty oIF = true then
        ((t1.filesUnder sourceRoot).foldl (visitStep oIF nIF false ol nl) t1).delete oIF
      else (t1.filesUnder sourceRoot).foldl (visitStep oIF nIF false ol nl) t1)) :
    ∃ p, (p, e.2) ∈ t1 := by
  by_cases hce : ((t1.filesUnder sourceRoot).foldl
      (visitStep oIF nIF false ol nl) t1).childrenEmpty oIF = true
  · rw [if_pos hce] at he
    exact foldl_visit_false_snd _ _ _ _ _ _ _ (mem_of_mem_delete he)
  · rw [if_neg hce] at he
    exact foldl_visit_false_snd _ _ _ _ _ _ _ he

theorem pipeline_preserve (oIF nIF ol nl : String) (t1 : Tree) (sourceRoot : String)
    {n : String} {c : FileContent} (hm : (n, c) ∈ t1) (hn : strContains n oIF = false) :
    (n, c) ∈ (if ((t1.filesUnder sourceRoot).foldl
          (visitStep oIF nIF false ol nl) t1).childrenEmpty oIF = true then
        ((t1.filesUnder sourceRoot).foldl (visitStep oIF nIF false ol nl) t1).delete oIF
      else (t1.filesUnder sourceRoot).foldl (visitStep oIF nIF false ol nl) t1) := by
  have h2 := foldl_visit_false_preserve oIF nIF ol nl (t1.filesUnder sourceRoot) t1 n c hm hn
  rcases not_contains_escapes_delete hn with ⟨hne, hpref⟩
  by_cases hce : ((t1.filesUnder sourceRoot).foldl
      (visitStep oIF nIF false ol nl) t1).childrenEmpty oIF = true
  · rw [if_pos hce]
    exact mem_delete_of_ne h2 hne hpref
  · rw [if_neg hce]
    exact h2

theorem pipeline_no_new (oIF nIF ol nl : String) (t1 : Tree) (sourceRoot : String)
    {x : String} (h0 : ∀ c, (x, c) ∉ t1)
    (hq : ∀ q, q ∈ t1.filesUnder sourceRoot → migratedPath oIF nIF q ≠ x) :
    ∀ c, (x, c) ∉ (if ((t1.filesUnder sourceRoot).foldl
          (visitStep oIF nIF false ol nl) t1).childrenEmpty oIF = true then
        ((t1.filesUnder sourceRoot).foldl (visitStep oIF nIF false ol nl) t1).delete oIF
      else (t1.filesUnder sourceRoot).foldl (visitStep oIF nIF false ol nl) t1) := by
  have h1 := foldl_visit_no_new oIF nIF false ol nl (t1.filesUnder sourceRoot) t1 x h0 hq
  by_cases hce : ((t1.filesUnder sourceRoot).foldl
      (visitStep oIF nIF false ol nl) t1).childrenEmpty oIF = true
  · rw [if_pos hce]
    intro c hm
    exact h1 c (mem_of_mem_delete hm)
  · rw [if_neg hce]
    exact h1

/-- C6: when the legacy config's `supportFile` is `false`, the translated
config's `e2e.supportFile` is also `false`; the path migration rewrites no
file contents (every surviving file's content already occurred in the input
tree — only renames and the empty-folder cleanup happen); and the conventional
default support file `<sourceRoot>/support/index.ts`, when it exists, is
renamed to `<sourceRoot>/support/e2e.ts` (its content moves there and nothing
remains at the old default path), provided the new default path is not inside
the old integration folder and no visited file migrates onto the old default
path. -/
theorem claim_C6_supportFile_false_frame (tree : Tree) (root sourceRoot tsIF : String)
    (tsSF : JValue) (jsonIF : String) (cfgJson : JObject)
    (hsf : getKey cfgJson "supportFile" = some (.bool false)) :
    getKey (createNewCypressConfig tree sourceRoot cfgJson).e2e "supportFile" =
      some (.bool false) ∧
    (∀ e : String × FileContent,
      e ∈ updateProjectPaths root sourceRoot tsIF tsSF jsonIF (.bool false) tree →
      ∃ p, (p, e.2) ∈ tree) ∧
    (∀ c, (joinPathFragments [sourceRoot, "support", "index.ts"], c) ∈ tree →
      strContains (joinPathFragments [sourceRoot, "support", "e2e.ts"])
        (joinPathFragments [root, jsonIF]) = false →
      (∀ q, q ∈ Tree.filesUnder
          (tree.rename (joinPathFragments [sourceRoot, "support", "index.ts"])
            (joinPathFragments [sourceRoot, "support", "e2e.ts"])) sourceRoot →
        migratedPath (joinPathFragments [root, jsonIF]) (joinPathFragments [root, tsIF]) q ≠
          joinPathFragments [sourceRoot, "support", "index.ts"]) →
      ((joinPathFragments [sourceRoot, "support", "e2e.ts"], c) ∈
        updateProjectPaths root sourceRoot tsIF tsSF jsonIF (.bool false) tree ∧
        ∀ c', (joinPathFragments [sourceRoot, "support", "index.ts"], c') ∉
          updateProjectPaths root sourceRoot tsIF tsSF jsonIF (.bool false) tree)) := by
  refine ⟨?_, ?_, ?_⟩
  · show getKey (setKey _ "integrationFolder" _) "supportFile" = _
    rw [getKey_setKey_ne _ _ _ _ (by decide), getKey_setKey_self, hsf]
    rfl
  · intro e he
    rw [updateProjectPaths_false_eq] at he
    dsimp only at he
    rcases pipeline_snd _ _ _ _ _ _ _ he with ⟨p, hp⟩
    by_cases hex : tree.existsFile (joinPathFragments [sourceRoot, "support", "index.ts"]) = true
    · rw [if_pos hex] at hp
      exact snd_mem_rename (e := (p, e.2)) hp
    · rw [if_neg hex] at hp
      exact ⟨p, hp⟩
  · intro c hc hnc hq
    have hex : tree.existsFile (joinPathFragments [sourceRoot, "support", "index.ts"]) = true :=
      existsFile_of_mem hc
    have hnd : joinPathFragments [sourceRoot, "support", "e2e.ts"] ≠
        joinPathFragments [sourceRoot, "support", "index.ts"] :=
      join_support_e2e_ne_index sourceRoot
    constructor
    · rw [updateProjectPaths_false_eq]
      dsimp only
      rw [if_pos hex]
      exact pipeline_preserve _ _ _ _ _ _ (mem_rename_tgt _ hc) hnc
    · intro c'
      rw [updateProjectPaths_false_eq]
      dsimp only
      rw [if_pos hex]
      exact pipeline_no_new _ _ _ _ _ _ (fun c' => not_mem_rename_src hnd c') hq c'

/-- Concrete instance of C6: with `supportFile: false` and an existing default
support file, the migration renames `r/src/support/index.ts` to
`r/src/support/e2e.ts` with content intact and leaves nothing at the old
path. -/
theorem claim_C6_supportFile_false_frame_witness :
    getKey [("supportFile", JValue.bool false)] "supportFile" = some (.bool false) ∧
    ((joinPathFragments ["r/src", "support", "e2e.ts"], [Tok.other "x"]) ∈
      updateProjectPaths "r" "r/src" "src/e2e" (.bool false) "src/integration" (.bool false)
        [("r/src/support/index.ts", [Tok.other "x"])] ∧
      ∀ c', (joinPathFragments ["r/src", "support", "index.ts"], c') ∉
        updateProjectPaths "r" "r/src" "src/e2e" (.bool false) "src/integration" (.bool false)
          [("r/src/support/index.ts", [Tok.other "x"])]) :=
  ⟨by decide,
    (claim_C6_supportFile_false_frame
        [("r/src/support/index.ts", [Tok.other "x"])] "r" "r/src" "src/e2e"
        (.bool false) "src/integration" [("supportFile", JValue.bool false)]
        (by decide)).2.2 [Tok.other "x"] (by decide) (by decide) (by decide)⟩

/-! ## Claim C7 -/

/-- C7: a passthrough key of the legacy config — any key other than the six
recognized ones (`baseUrl`, `modifyObstructiveCode`, `integrationFolder`,
`supportFile`, `pluginsFile`, `specPattern`) — survives translation into the
new config's `e2e` object with its value unchanged, and its rendered binding
appears verbatim in the emitted source text.  The config is restricted to the
class on which the `util.inspect` model is exact: every key matches node's
unquoted-key regex (`identKey`) and every string value needs no escaping or
re-quoting (`plainValue`). -/
theorem claim_C7_passthrough_roundtrip (tree : Tree) (sourceRoot : String) (cfg : JObject)
    (k : String) (v : JValue) (hmem : (k, v) ∈ cfg)
    (hk : ¬ k ∈ (["baseUrl", "modifyObstructiveCode", "integrationFolder",
      "supportFile", "pluginsFile", "specPattern"] : List String))
    (hkeys : ∀ e, e ∈ cfg → identKey e.1 = true)
    (_hvals : ∀ e, e ∈ cfg → plainValue e.2 = true) :
    (k, v) ∈ (createNewCypressConfig tree sourceRoot cfg).e2e ∧
    strContains (writeNewConfigText (createNewCypressConfig tree sourceRoot cfg).e2e)
      (renderEntry (k, v)) = true := by
  simp only [List.mem_cons, List.not_mem_nil, or_false, not_or] at hk
  obtain ⟨h1, h2, h3, h4, h5, h6⟩ := hk
  have hrest : (k, v) ∈ dropKeys cfg
      ["baseUrl", "modifyObstructiveCode", "integrationFolder", "supportFile"] :=
    mem_dropKeys hmem (by simp [h1, h2, h3, h4])
  have he2e : (k, v) ∈ (createNewCypressConfig tree sourceRoot cfg).e2e := by
    show (k, v) ∈ setKey (setKey (setKey _ "specPattern" _) "supportFile" _)
      "integrationFolder" _
    exact mem_setKey_of_ne _ _ (mem_setKey_of_ne _ _ (mem_setKey_of_ne _ _ hrest h6) h4) h3
  refine ⟨he2e, ?_⟩
  have hstr : (k, v) ∈ strippedE2e (createNewCypressConfig tree sourceRoot cfg).e2e :=
    mem_dropKeys he2e (by simp [h5, h3])
  have hplainAll : ∀ e, e ∈ strippedE2e (createNewCypressConfig tree sourceRoot cfg).e2e →
      plainKey e.1 = true := by
    intro e he
    have he' := (of_mem_dropKeys he).1
    rcases mem_of_mem_setKey he' with he2 | heq
    · rcases mem_of_mem_setKey he2 with he3 | heq
      · rcases mem_of_mem_setKey he3 with he4 | heq
        · exact identKey_plainKey _ (hkeys e (of_mem_dropKeys he4).1)
        · rw [congrArg Prod.fst heq]
          exact (by decide : plainKey "specPattern" = true)
      · rw [congrArg Prod.fst heq]
        exact (by decide : plainKey "supportFile" = true)
    · rw [congrArg Prod.fst heq]
      exact (by decide : plainKey "integrationFolder" = true)
  have hnil : strippedE2e (createNewCypressConfig tree sourceRoot cfg).e2e ≠ [] :=
    List.ne_nil_of_mem hstr
  have hcc := convertedConfig_eq _ hnil hplainAll
  rcases strJoin_data_mem ", " _ (renderEntry (k, v))
    (List.mem_map_of_mem renderEntry hstr) with ⟨pre, post, hJ⟩
  refine strContains_of_data_decomp
    ((wncHeader ++ pluginImport (pluginsFileOf (createNewCypressConfig tree sourceRoot cfg).e2e)
        ++ wncMid).data ++ pre)
    (post ++ (wncComma ++ setupNodeEventsSlot
        (pluginsFileOf (createNewCypressConfig tree sourceRoot cfg).e2e) ++ wncFooter).data) ?_
  unfold writeNewConfigText
  dsimp only
  rw [hcc]
  simp [String.data_append, hJ]

/-- Concrete instance of C7: the passthrough binding `viewportWidth: 1280`
survives into `e2e` and appears in the emitted text. -/
theorem claim_C7_passthrough_roundtrip_witness :
    ("viewportWidth", JValue.num 1280) ∈
      (createNewCypressConfig [] "r/src" [("viewportWidth", JValue.num 1280)]).e2e ∧
    strContains
      (writeNewConfigText (createNewCypressConfig [] "r/src"
        [("viewportWidth", JValue.num 1280)]).e2e)
      (renderEntry ("viewportWidth", JValue.num 1280)) = true :=
  claim_C7_passthrough_roundtrip [] "r/src" [("viewportWidth", JValue.num 1280)]
    "viewportWidth" (JValue.num 1280) (by decide) (by decide) (by decide) (by decide)

/-! ## Claim C9 -/

/-- C9: the serialized `e2e` object never carries a standalone `pluginsFile`
or `integrationFolder` binding; with a truthy `pluginsFile` the emitted text
contains both the synthesized import statement and a `setupNodeEvents`
reference; with a falsy `pluginsFile` (and a serialized payload that does not
itself spell `setupNodeEvents` — witnessed by the absence of the character
`N`) neither appears anywhere in the emitted text. -/
theorem claim_C9_plugins_emission (e2e : JObject) :
    (∀ k v, (k, v) ∈ strippedE2e e2e → k ≠ "pluginsFile" ∧ k ≠ "integrationFolder") ∧
    ((pluginsFileOf e2e).truthy = true →
      strContains (writeNewConfigText e2e)
        ("import setupNodeEvents from \x27" ++ (pluginsFileOf e2e).toDisplay ++ "\x27;") = true ∧
      strContains (writeNewConfigText e2e) "setupNodeEvents" = true) ∧
    ((pluginsFileOf e2e).truthy = false →
      'N' ∉ (convertedConfig (strippedE2e e2e)).data →
      strContains (writeNewConfigText e2e) "setupNodeEvents" = false ∧
      strContains (writeNewConfigText e2e) "import setupNodeEvents from" = false) := by
  refine ⟨?_, ?_, ?_⟩
  · intro k v h
    have := (of_mem_dropKeys h).2
    simp only [List.mem_cons, List.not_mem_nil, or_false, not_or] at this
    exact this
  · intro ht
    have hpi : pluginImport (pluginsFileOf e2e) =
        "import setupNodeEvents from \x27" ++ (pluginsFileOf e2e).toDisplay ++ "\x27;" := by
      unfold pluginImport
      rw [if_pos ht]
    constructor
    · refine strContains_of_data_decomp wncHeader.data
        ((wncMid ++ convertedConfig (strippedE2e e2e) ++ wncComma
          ++ setupNodeEventsSlot (pluginsFileOf e2e) ++ wncFooter).data) ?_
      unfold writeNewConfigText
      dsimp only
      rw [hpi]
      simp [String.data_append]
    · have hsplit : ("import setupNodeEvents from \x27" : String).data =
          ("import " : String).data ++ ("setupNodeEvents" : String).data
            ++ (" from \x27" : String).data := by decide
      refine strContains_of_data_decomp (wncHeader.data ++ ("import " : String).data)
        ((" from \x27" : String).data ++ (pluginsFileOf e2e).toDisplay.data
          ++ ("\x27;" : String).data
          ++ (wncMid ++ convertedConfig (strippedE2e e2e) ++ wncComma
            ++ setupNodeEventsSlot (pluginsFileOf e2e) ++ wncFooter).data) ?_
      unfold writeNewConfigText
      dsimp only
      rw [hpi]
      simp only [String.data_append, hsplit]
      simp
  · intro hf hN
    have hpi0 : pluginImport (pluginsFileOf e2e) = "" := by
      unfold pluginImport
      rw [if_neg (by simp [hf])]
    have hslot0 : setupNodeEventsSlot (pluginsFileOf e2e) = "" := by
      unfold setupNodeEventsSlot
      rw [if_neg (by simp [hf])]
    have hNemit : 'N' ∉ (writeNewConfigText e2e).data := by
      unfold writeNewConfigText
      dsimp only
      rw [hpi0, hslot0]
      intro hmem
      simp only [String.data_append, List.mem_append,
        show ("" : String).data = [] from rfl, List.not_mem_nil, or_false, false_or] at hmem
      rcases hmem with ((((h | h) | h) | h) | h)
      · exact absurd h (by decide)
      · exact absurd h (by decide)
      · exact hN h
      · exact absurd h (by decide)
      · exact absurd h (by decide)
    constructor
    · cases hc : strContains (writeNewConfigText e2e) "setupNodeEvents" with
      | false => rfl
      | true =>
        exact absurd (mem_of_listContains hc (by decide)) hNemit
    · cases hc : strContains (writeNewConfigText e2e) "import setupNodeEvents from" with
      | false => rfl
      | true =>
        exact absurd (mem_of_listContains hc (by decide)) hNemit

/-- Concrete instances of C9: a truthy `pluginsFile` makes `setupNodeEvents`
appear in the emitted text, a falsy one leaves it absent. -/
theorem claim_C9_plugins_emission_witness :
    (JValue.truthy (pluginsFileOf [("pluginsFile", JValue.str "./plugins.ts")]) = true ∧
      strContains (writeNewConfigText [("pluginsFile", JValue.str "./plugins.ts")])
        "setupNodeEvents" = true) ∧
    (JValue.truthy (pluginsFileOf [("supportFile", JValue.bool false)]) = false ∧
      strContains (writeNewConfigText [("supportFile", JValue.bool false)])
        "setupNodeEvents" = false) :=
  ⟨⟨by decide,
    ((claim_C9_plugins_emission [("pluginsFile", JValue.str "./plugins.ts")]).2.1
      (by decide)).2⟩,
   ⟨by decide,
    ((claim_C9_plugins_emission [("supportFile", JValue.bool false)]).2.2
      (by decide) (by decide)).1⟩⟩

/-! ## Claim C10 -/

/-- C10: every matched string literal is re-emitted single-quoted, whatever
its original delimiter: a literal token with any delimiter whose value ends
with the old leaf maps to a `singleQuote`-delimited token. -/
theorem claim_C10_requoted (oldLeaf newLeaf : String) (content : FileContent)
    (i : Nat) (d : Char) (v : String)
    (h : content[i]? = some (.lit d v)) (hend : strEnds v oldLeaf = true) :
    (updateImportsContent oldLeaf newLeaf content)[i]? =
      some (.lit singleQuote (jsReplace v oldLeaf newLeaf)) := by
  unfold updateImportsContent
  rw [List.getElem?_map, h]
  simp [rewriteTok, hend]

/-- Concrete instance of C10: a double-quoted `"../support"` import literal is
re-emitted single-quoted as `../support/e2e`. -/
theorem claim_C10_requoted_witness :
    (updateImportsContent "support" "support/e2e"
        [Tok.lit (Char.ofNat 34) "../support"])[0]? =
      some (.lit singleQuote (jsReplace "../support" "support" "support/e2e")) ∧
    jsReplace "../support" "support" "support/e2e" = "../support/e2e" ∧
    Char.ofNat 34 ≠ singleQuote :=
  ⟨claim_C10_requoted "support" "support/e2e" [Tok.lit (Char.ofNat 34) "../support"]
      0 (Char.ofNat 34) "../support" rfl (by decide),
    by decide, by decide⟩

end CypressConvert
